import Mathlib

/-
Verification of the markdown-to-HTML API service's CSS pipeline and glue
layer.  The source is TypeScript; strings are modelled as `List Char`
(ASCII inputs), regular-expression rewrites as explicit scanning functions
with JavaScript `String.replace` semantics (leftmost match, continue after
the replacement), and external libraries (marked, DOMPurify, juice) as
function parameters.
-/

/-- Character class of the JavaScript regex `\s` (ASCII range). -/
def isSpace (c : Char) : Bool :=
  c = ' ' || c = '\t' || c = '\n' || c = '\r' || c = '\x0b' || c = '\x0c'

/-- Character class of the JavaScript regex `\w` (ASCII range). -/
def isWordChar (c : Char) : Bool :=
  c.isAlpha || c.isDigit || c = '_'

/-- Character class of the JavaScript regex `[\w-]`. -/
def isWordDash (c : Char) : Bool :=
  isWordChar c || c = '-'

/-- Case-insensitive character comparison, as the JavaScript `i` regex flag. -/
def ciChar (a b : Char) : Bool := a.toLower = b.toLower

/-- Case-insensitive prefix test. -/
def ciPre : List Char → List Char → Bool
  | [], _ => true
  | _ :: _, [] => false
  | a :: as, b :: bs => ciChar a b && ciPre as bs

/-- Case-sensitive prefix test (reduces without forcing the tail). -/
def litPre : List Char → List Char → Bool
  | [], _ => true
  | _ :: _, [] => false
  | a :: as, b :: bs => a == b && litPre as bs

/-- JavaScript `String.prototype.trim` (ASCII whitespace). -/
def jsTrim (s : List Char) : List Char :=
  ((s.dropWhile isSpace).reverse.dropWhile isSpace).reverse

/-- A matcher consumes a prefix of the text and reports how many characters
the regex match spans, or `none` if the regex does not match at this
position. -/
def pLit (lit : List Char) (s : List Char) : Option Nat :=
  if litPre lit s then some lit.length else none

/-- Matcher for a case-insensitive literal. -/
def pLitCI (lit : List Char) (s : List Char) : Option Nat :=
  if ciPre lit s then some lit.length else none

/-- Matcher for `\s*` (always succeeds, greedy). -/
def pWS (s : List Char) : Option Nat :=
  some (s.takeWhile isSpace).length

/-- Sequencing of matchers. -/
def pSeq (p q : List Char → Option Nat) (s : List Char) : Option Nat :=
  (p s).bind (fun n => (q (s.drop n)).map (n + ·))

/-- Global regex replacement with a constant replacement string: scan left to
right, replace the leftmost match, continue after the replacement
(JavaScript `String.replace` with the `g` flag).  All matchers used here
consume at least one character. -/
def replaceAllC (m : List Char → Option Nat) (r : List Char) : List Char → List Char
  | [] => []
  | c :: t =>
    match m (c :: t) with
    | some n => r ++ replaceAllC m r (t.drop (n - 1))
    | none => c :: replaceAllC m r t
termination_by s => s.length
decreasing_by
  · simp only [List.length_drop, List.length_cons]
    omega
  · simp only [List.length_cons]
    omega

/-- Matcher for the per-variable substitution regex
`var\(\s*NAME\s*\)` (case-sensitive), from `processCSS` line 230. -/
def mVarSub (name : List Char) : List Char → Option Nat :=
  pSeq (pLit ("var(".toList))
    (pSeq pWS (pSeq (pLit name) (pSeq pWS (pLit [')']))))

/-- Matcher for the `:root` removal regex `:root\s*\{[\s\S]*?\}` (flags `gi`). -/
def pToCloseBrace : List Char → Option Nat
  | [] => none
  | c :: t => if c = '\x7d' then some 1 else (pToCloseBrace t).map (· + 1)

/-- Matcher for an opening left brace. -/
def pOpenBrace : List Char → Option Nat := pLit ['\x7b']

/-- Matcher for the whole `:root\s*\{[\s\S]*?\}` pattern. -/
def mRoot : List Char → Option Nat :=
  pSeq (pLitCI (":root".toList)) (pSeq pWS (pSeq pOpenBrace pToCloseBrace))

/-- Content captured by the lazy group of `:root\s*\{([\s\S]*?)\}` when the
pattern matches at the head of the text. -/
def contentToBrace : List Char → Option (List Char)
  | [] => none
  | c :: t => if c = '\x7d' then some [] else (contentToBrace t).map (c :: ·)

/-- Captured `:root` body when the pattern matches at the head of the text. -/
def rootContentAt (s : List Char) : Option (List Char) :=
  match pSeq (pLitCI (":root".toList)) (pSeq pWS pOpenBrace) s with
  | some n => contentToBrace (s.drop n)
  | none => none

/-- Leftmost `:root` block body, as `css.match(/:root\s*\{([\s\S]*?)\}/i)`. -/
def findRootContent : List Char → Option (List Char)
  | [] => none
  | c :: t =>
    match rootContentAt (c :: t) with
    | some content => some content
    | none => findRootContent t

/-- One match of the variable-definition regex `(--[\w-]+)\s*:\s*([^;]+);`
at the head of the text: returns the name (with the `--` prefix), the raw
value, and the remaining text after the match. -/
def varDefAt (s : List Char) : Option (List Char × List Char × List Char) :=
  if litPre ("--".toList) s then
    let rest := s.drop 2
    let nm := rest.takeWhile isWordDash
    if nm = [] then none
    else
      let r2 := (rest.drop nm.length).dropWhile isSpace
      match r2 with
      | ':' :: r3 =>
        let r4 := r3.dropWhile isSpace
        let v := r4.takeWhile (· ≠ ';')
        if v = [] then none
        else
          match r4.drop v.length with
          | ';' :: r5 => some ('-' :: '-' :: nm, v, r5)
          | _ => none
      | _ => none
  else none

/-- Insertion into the variable table with JavaScript object semantics:
an existing key keeps its position and gets the new value, a new key is
appended. -/
def tInsert (t : List (List Char × List Char)) (k v : List Char) :
    List (List Char × List Char) :=
  if t.any (fun p => p.1 = k) then
    t.map (fun p => if p.1 = k then (k, v) else p)
  else t ++ [(k, v)]

/-- Lookup in the variable table. -/
def tLookup : List (List Char × List Char) → List Char → Option (List Char)
  | [], _ => none
  | (k', v) :: r, k => if k' = k then some v else tLookup r k

/-- Fuelled scan collecting all matches of `(--[\w-]+)\s*:\s*([^;]+);` in the
`:root` body (the `while` loop at lines 215-221); name and value are
trimmed. -/
def parseVarsGo (fuel : Nat) (s : List Char)
    (acc : List (List Char × List Char)) : List (List Char × List Char) :=
  match fuel with
  | 0 => acc
  | fuel + 1 =>
    match s with
    | [] => acc
    | c :: t =>
      match varDefAt (c :: t) with
      | some (nm, v, rest) => parseVarsGo fuel rest (tInsert acc (jsTrim nm) (jsTrim v))
      | none => parseVarsGo fuel t acc

/-- Variable table extracted from the first `:root` block of the stylesheet. -/
def cssVariables (css : List Char) : List (List Char × List Char) :=
  match findRootContent css with
  | some content => parseVarsGo (content.length + 1) content []
  | none => []

/-- Sequential substitution of every table entry (the `for` loop at lines
226-232): each variable's `var(\s*NAME\s*)` references are replaced by its
value, in table order. -/
def substVars (table : List (List Char × List Char)) (css : List Char) : List Char :=
  table.foldl (fun acc p => replaceAllC (mVarSub p.1) p.2 acc) css

/-- Join with a separator, as `Array.prototype.join`. -/
def joinSep (sep : List Char) : List (List Char) → List Char
  | [] => []
  | [x] => x
  | x :: y :: r => x ++ sep ++ joinSep sep (y :: r)

/-- Synthesized `.md-container` rule prepended when the `:root` block defines
`--md-font-family` or `--md-font-size` (lines 236-252); empty otherwise. -/
def containerPrefix (table : List (List Char × List Char)) : List Char :=
  let ff := tLookup table ("--md-font-family".toList)
  let fs := tLookup table ("--md-font-size".toList)
  if ff = none && fs = none then []
  else
    let styles :=
      (match ff with
       | some f => [("font-family: ".toList) ++ f]
       | none => []) ++
      (match fs with
       | some f => [("font-size: ".toList) ++ f]
       | none => []) ++
      ["line-height: 1.8".toList, "color: hsl(0, 0%, 3.9%)".toList]
    (".md-container \x7b ".toList) ++ joinSep ("; ".toList) styles ++ ("; \x7d\n".toList)

/-- Removal of every `:root` block: `processed.replace(/:root\s*\{[\s\S]*?\}/gi, '')`. -/
def removeRootBlocks : List Char → List Char := replaceAllC mRoot []

/-- Matcher for `display\s*:\s*block` (case-insensitive). -/
def mDB : List Char → Option Nat :=
  pSeq (pLitCI ("display".toList))
    (pSeq pWS (pSeq (pLit [':']) (pSeq pWS (pLitCI ("block".toList)))))

/-- Test of `/li\s*\{[^}]*$/i` at one starting point of the window. -/
def liOpenAt (w : List Char) : Bool :=
  if ciPre ("li".toList) w then
    match (w.drop 2).dropWhile isSpace with
    | '\x7b' :: rest => rest.all (· ≠ '\x7d')
    | _ => false
  else false

/-- Lookback test of the list-display patcher: the 50-character window of the
original text immediately before offset `i` is searched for an unclosed
`li {` opener (`/li\s*\{[^}]*$/i.test(before)`, lines 261-262). -/
def liLookback (s : List Char) (i : Nat) : Bool :=
  let w := (s.take i).drop (i - 50)
  (List.range w.length).any (fun j => liOpenAt (w.drop j))

/-- Replacement text used inside `li` rule bodies. -/
def liItemRepl : List Char := "display: list-item".toList

/-- Scanner of the list-display patch (lines 259-266): `r` is the remaining
text, `i` its offset in the original string `s`; the lookback window is read
from `s` (the pre-replacement string, as the JavaScript closure does). -/
def patchGo (s : List Char) : List Char → Nat → List Char
  | [], _ => []
  | c :: t, i =>
    match mDB (c :: t) with
    | some n =>
      (if liLookback s i then liItemRepl else (c :: t).take n) ++
        patchGo s (t.drop (n - 1)) (i + n)
    | none => c :: patchGo s t (i + 1)
termination_by r _ => r.length
decreasing_by
  · simp only [List.length_drop, List.length_cons]
    omega
  · simp only [List.length_cons]
    omega

/-- List-display patcher stage of `processCSS`. -/
def patchListDisplay (s : List Char) : List Char := patchGo s s 0

/-- Matcher for `hsl\s*\(\s*var\s*\(\s*NAME\s*\)\s*\)` (case-insensitive). -/
def mHslVar (name : List Char) : List Char → Option Nat :=
  pSeq (pLitCI ("hsl".toList))
    (pSeq pWS (pSeq (pLit ['('])
      (pSeq pWS (pSeq (pLitCI ("var".toList))
        (pSeq pWS (pSeq (pLit ['('])
          (pSeq pWS (pSeq (pLitCI name)
            (pSeq pWS (pSeq (pLit [')']) (pSeq pWS (pLit [')']))))))))))))

/-- Matcher for `var\s*\(\s*NAME\s*\)` (case-insensitive). -/
def mVarTol (name : List Char) : List Char → Option Nat :=
  pSeq (pLitCI ("var".toList))
    (pSeq pWS (pSeq (pLit ['('])
      (pSeq pWS (pSeq (pLitCI name) (pSeq pWS (pLit [')']))))))

/-- Matcher for the final fallback sweep `var\(--[\w-]+\)` (case-sensitive,
no whitespace tolerance). -/
def mSweep (s : List Char) : Option Nat :=
  if litPre ("var(--".toList) s then
    let r := s.drop 6
    let nm := r.takeWhile isWordDash
    if nm = [] then none
    else
      match r.drop nm.length with
      | ')' :: _ => some (6 + nm.length + 1)
      | _ => none
  else none

/-- Everything `processCSS` does before its final fallback sweep: variable
extraction and substitution, the synthesized container rule, `:root`
removal, the list-display patch, and the hardcoded shims for
`hsl(var(--foreground))`, `hsl(var(--background))`,
`var(--blockquote-background)`, `var(--foreground)`, `var(--background)`,
in source order (lines 203-279). -/
def preSweep (css : List Char) : List Char :=
  let table := cssVariables css
  let p1 := substVars table css
  let p2 := containerPrefix table ++ p1
  let p3 := removeRootBlocks p2
  let p4 := patchListDisplay p3
  let p5 := replaceAllC (mHslVar ("--foreground".toList)) ("hsl(0, 0%, 3.9%)".toList) p4
  let p6 := replaceAllC (mHslVar ("--background".toList)) ("hsl(0, 0%, 100%)".toList) p5
  let p7 := replaceAllC (mVarTol ("--blockquote-background".toList))
    ("rgba(0,0,0,0.03)".toList) p6
  let p8 := replaceAllC (mVarTol ("--foreground".toList)) ("0 0% 3.9%".toList) p7
  replaceAllC (mVarTol ("--background".toList)) ("0 0% 100%".toList) p8

/-- CSS variable resolver and list-display patcher (`processCSS`,
lines 203-285): the stages before the sweep followed by the final
`processed.replace(/var\(--[\w-]+\)/g, 'inherit')`. -/
def processCSS (css : List Char) : List Char :=
  replaceAllC mSweep ("inherit".toList) (preSweep css)

/-- CSS constant `DEFAULT_THEME_CSS` transcribed from the source. -/
def DEFAULT_THEME_CSS : List Char :=
  "
:root \x7b
  --md-primary-color: #0F4C81;
  --md-font-family: -apple-system-font, BlinkMacSystemFont, Helvetica Neue, PingFang SC, Hiragino Sans GB, Microsoft YaHei UI, Microsoft YaHei, Arial, sans-serif;
  --md-font-size: 16px;
\x7d

.md-container \x7b font-family: var(--md-font-family); font-size: var(--md-font-size); line-height: 1.8; color: #333; \x7d
h1, h2, h3, h4, h5, h6 \x7b font-weight: bold; color: inherit; margin: 1.5em 0 0.5em; \x7d
h1 \x7b font-size: 1.6em; border-bottom: 2px solid var(--md-primary-color); display: table; margin: 2em auto 1em; padding: 0 1em; \x7d
h2 \x7b font-size: 1.4em; background: var(--md-primary-color); color: #fff; display: table; margin: 2em auto 1em; padding: 0.2em 0.5em; \x7d
h3 \x7b font-size: 1.2em; border-left: 3px solid var(--md-primary-color); padding-left: 8px; \x7d
p \x7b margin: 1em 0; \x7d
blockquote \x7b border-left: 4px solid var(--md-primary-color); padding: 1em; margin: 1em 0; background: rgba(0,0,0,0.03); \x7d
blockquote p \x7b margin: 0; \x7d
code \x7b background: rgba(27,31,35,0.05); padding: 2px 5px; border-radius: 3px; font-size: 90%; color: #d14; \x7d
pre \x7b background: #f6f8fa; padding: 1em; border-radius: 6px; overflow-x: auto; line-height: 1.5; \x7d
pre code \x7b background: none; padding: 0; color: inherit; \x7d
a \x7b color: #576b95; text-decoration: none; \x7d
strong \x7b color: var(--md-primary-color); font-weight: bold; \x7d
ul, ol \x7b padding-left: 1.5em; margin: 1em 0; \x7d
li \x7b margin: 0.3em 0; \x7d
table \x7b border-collapse: collapse; width: 100%; margin: 1em 0; \x7d
th, td \x7b border: 1px solid #ddd; padding: 8px; \x7d
th \x7b background: #f6f8fa; font-weight: bold; \x7d
img \x7b max-width: 100%; display: block; margin: 1em auto; border-radius: 4px; \x7d
hr \x7b border: none; border-top: 2px solid #eee; margin: 2em 0; \x7d
".toList

/-- CSS constant `BASE_WECHAT_CSS` transcribed from the source. -/
def BASE_WECHAT_CSS : List Char :=
  "
/* Base styles for WeChat compatibility */

/* List styles - ensure markers are visible */
ul \x7b
  list-style-type: disc !important;
  padding-left: 2em !important;
  margin: 1em 0;
\x7d

ol \x7b
  list-style-type: decimal !important;
  padding-left: 2em !important;
  margin: 1em 0;
\x7d

li \x7b
  display: list-item !important;
  margin: 0.3em 0;
\x7d

/* Container base */
.md-container \x7b
  line-height: 1.8;
  color: #333;
  word-wrap: break-word;
  overflow-wrap: break-word;
\x7d

/* Code block base */
pre \x7b
  overflow-x: auto;
  background: #f6f8fa;
  border-radius: 6px;
  margin: 1em 0;
\x7d

pre code \x7b
  display: block;
  padding: 1em;
  white-space: pre-wrap;
  word-break: break-all;
\x7d

/* Table base */
table \x7b
  border-collapse: collapse;
  width: 100%;
  margin: 1em 0;
\x7d

th, td \x7b
  border: 1px solid #ddd;
  padding: 8px;
\x7d

th \x7b
  background: rgba(0, 0, 0, 0.05);
\x7d

/* Image base */
img \x7b
  max-width: 100%;
  height: auto;
\x7d

/* Link base */
a \x7b
  color: #576b95;
  text-decoration: none;
\x7d

/* Blockquote base */
blockquote \x7b
  margin: 1em 0;
  padding: 1em;
  border-left: 4px solid #ddd;
  background: rgba(0, 0, 0, 0.03);
\x7d

/* Horizontal rule */
hr \x7b
  border: none;
  border-top: 1px solid rgba(0, 0, 0, 0.1);
  margin: 1.5em 0;
\x7d
".toList

/-- CSS constant `githubDark` transcribed from the source. -/
def githubDark : List Char :=
  "
/* GitHub Dark Theme */
.hljs \x7b
  color: #c9d1d9;
  background: #0d1117;
\x7d
.hljs-doctag,
.hljs-keyword,
.hljs-meta .hljs-keyword,
.hljs-template-tag,
.hljs-template-variable,
.hljs-type,
.hljs-variable.language_ \x7b
  color: #ff7b72;
\x7d
.hljs-title,
.hljs-title.class_,
.hljs-title.class_.inherited__,
.hljs-title.function_ \x7b
  color: #d2a8ff;
\x7d
.hljs-attr,
.hljs-attribute,
.hljs-literal,
.hljs-meta,
.hljs-number,
.hljs-operator,
.hljs-selector-attr,
.hljs-selector-class,
.hljs-selector-id,
.hljs-variable \x7b
  color: #79c0ff;
\x7d
.hljs-meta .hljs-string,
.hljs-regexp,
.hljs-string \x7b
  color: #a5d6ff;
\x7d
.hljs-built_in,
.hljs-symbol \x7b
  color: #ffa657;
\x7d
.hljs-code,
.hljs-comment,
.hljs-formula \x7b
  color: #8b949e;
\x7d
.hljs-name,
.hljs-quote,
.hljs-selector-pseudo,
.hljs-selector-tag \x7b
  color: #7ee787;
\x7d
.hljs-subst \x7b
  color: #c9d1d9;
\x7d
.hljs-section \x7b
  color: #1f6feb;
  font-weight: bold;
\x7d
.hljs-bullet \x7b
  color: #f2cc60;
\x7d
.hljs-emphasis \x7b
  color: #c9d1d9;
  font-style: italic;
\x7d
.hljs-strong \x7b
  color: #c9d1d9;
  font-weight: bold;
\x7d
.hljs-addition \x7b
  color: #aff5b4;
  background-color: #033a16;
\x7d
.hljs-deletion \x7b
  color: #ffdcd7;
  background-color: #67060c;
\x7d
".toList

/-- CSS constant `github` transcribed from the source. -/
def github : List Char :=
  "
/* GitHub Light Theme */
.hljs \x7b
  color: #24292e;
  background: #f6f8fa;
\x7d
.hljs-doctag,
.hljs-keyword,
.hljs-meta .hljs-keyword,
.hljs-template-tag,
.hljs-template-variable,
.hljs-type,
.hljs-variable.language_ \x7b
  color: #d73a49;
\x7d
.hljs-title,
.hljs-title.class_,
.hljs-title.class_.inherited__,
.hljs-title.function_ \x7b
  color: #6f42c1;
\x7d
.hljs-attr,
.hljs-attribute,
.hljs-literal,
.hljs-meta,
.hljs-number,
.hljs-operator,
.hljs-selector-attr,
.hljs-selector-class,
.hljs-selector-id,
.hljs-variable \x7b
  color: #005cc5;
\x7d
.hljs-meta .hljs-string,
.hljs-regexp,
.hljs-string \x7b
  color: #032f62;
\x7d
.hljs-built_in,
.hljs-symbol \x7b
  color: #e36209;
\x7d
.hljs-code,
.hljs-comment,
.hljs-formula \x7b
  color: #6a737d;
\x7d
.hljs-name,
.hljs-quote,
.hljs-selector-pseudo,
.hljs-selector-tag \x7b
  color: #22863a;
\x7d
.hljs-subst \x7b
  color: #24292e;
\x7d
.hljs-section \x7b
  color: #005cc5;
  font-weight: bold;
\x7d
.hljs-bullet \x7b
  color: #735c0f;
\x7d
.hljs-emphasis \x7b
  color: #24292e;
  font-style: italic;
\x7d
.hljs-strong \x7b
  color: #24292e;
  font-weight: bold;
\x7d
.hljs-addition \x7b
  color: #22863a;
  background-color: #f0fff4;
\x7d
.hljs-deletion \x7b
  color: #b31d28;
  background-color: #ffeef0;
\x7d
".toList

/-- CSS constant `vs2015` transcribed from the source. -/
def vs2015 : List Char :=
  "
/* VS 2015 Dark Theme */
.hljs \x7b
  background: #1e1e1e;
  color: #dcdcdc;
\x7d
.hljs-keyword,
.hljs-literal,
.hljs-symbol,
.hljs-name \x7b
  color: #569cd6;
\x7d
.hljs-link \x7b
  color: #569cd6;
  text-decoration: underline;
\x7d
.hljs-built_in,
.hljs-type \x7b
  color: #4ec9b0;
\x7d
.hljs-number,
.hljs-class \x7b
  color: #b8d7a3;
\x7d
.hljs-string,
.hljs-meta .hljs-string \x7b
  color: #d69d85;
\x7d
.hljs-regexp,
.hljs-template-tag \x7b
  color: #9a5334;
\x7d
.hljs-subst,
.hljs-function,
.hljs-title,
.hljs-params,
.hljs-formula \x7b
  color: #dcdcdc;
\x7d
.hljs-comment,
.hljs-quote \x7b
  color: #57a64a;
  font-style: italic;
\x7d
.hljs-doctag \x7b
  color: #608b4e;
\x7d
.hljs-meta,
.hljs-meta .hljs-keyword,
.hljs-tag \x7b
  color: #9b9b9b;
\x7d
.hljs-variable,
.hljs-template-variable \x7b
  color: #bd63c5;
\x7d
.hljs-attr,
.hljs-attribute \x7b
  color: #9cdcfe;
\x7d
.hljs-section \x7b
  color: #ffd700;
\x7d
.hljs-emphasis \x7b
  font-style: italic;
\x7d
.hljs-strong \x7b
  font-weight: bold;
\x7d
.hljs-code \x7b
  font-family: \x27Menlo\x27, \x27Monaco\x27, \x27Consolas\x27, \x27Courier New\x27, monospace;
\x7d
.hljs-bullet,
.hljs-selector-tag,
.hljs-selector-id,
.hljs-selector-class,
.hljs-selector-attr,
.hljs-selector-pseudo \x7b
  color: #d7ba7d;
\x7d
.hljs-addition \x7b
  background-color: #144212;
  display: inline-block;
  width: 100%;
\x7d
.hljs-deletion \x7b
  background-color: #600;
  display: inline-block;
  width: 100%;
\x7d
".toList

/-- CSS constant `atomOneDark` transcribed from the source. -/
def atomOneDark : List Char :=
  "
/* Atom One Dark Theme */
.hljs \x7b
  color: #abb2bf;
  background: #282c34;
\x7d
.hljs-comment,
.hljs-quote \x7b
  color: #5c6370;
  font-style: italic;
\x7d
.hljs-doctag,
.hljs-keyword,
.hljs-formula \x7b
  color: #c678dd;
\x7d
.hljs-section,
.hljs-name,
.hljs-selector-tag,
.hljs-deletion,
.hljs-subst \x7b
  color: #e06c75;
\x7d
.hljs-literal \x7b
  color: #56b6c2;
\x7d
.hljs-string,
.hljs-regexp,
.hljs-addition,
.hljs-attribute,
.hljs-meta .hljs-string \x7b
  color: #98c379;
\x7d
.hljs-attr,
.hljs-variable,
.hljs-template-variable,
.hljs-type,
.hljs-selector-class,
.hljs-selector-attr,
.hljs-selector-pseudo,
.hljs-number \x7b
  color: #d19a66;
\x7d
.hljs-symbol,
.hljs-bullet,
.hljs-link,
.hljs-meta,
.hljs-selector-id,
.hljs-title \x7b
  color: #61aeee;
\x7d
.hljs-built_in,
.hljs-title.class_,
.hljs-class .hljs-title \x7b
  color: #e6c07b;
\x7d
.hljs-emphasis \x7b
  font-style: italic;
\x7d
.hljs-strong \x7b
  font-weight: bold;
\x7d
.hljs-link \x7b
  text-decoration: underline;
\x7d
".toList

/-- Side conditions on a pattern `p` and replacement `r` under which the
scan of `replaceAllC` can neither hide nor create an occurrence of `p`
across a replacement boundary. -/
def NoOverlap (p r : List Char) : Prop :=
  r ≠ [] ∧ p ≠ [] ∧ p.headI ∉ r ∧
    ∀ k, k < p.tail.length → ¬ (p.tail.drop k <+: r) ∧ ¬ (r <+: p.tail.drop k)

instance (p r : List Char) : Decidable (NoOverlap p r) := by
  unfold NoOverlap
  infer_instance


/-- Lookup of a code-highlight theme by name (`getCodeThemeCSS`); unknown
names fall back to the github-dark palette. -/
def getCodeThemeCSS (themeName : List Char) : List Char :=
  if themeName = ("github".toList) then github
  else if themeName = ("github-dark".toList) then githubDark
  else if themeName = ("vs2015".toList) then vs2015
  else if themeName = ("atom-one-dark".toList) then atomOneDark
  else githubDark

/-- Reading-time statistics of `calculateReadingTime`. -/
structure ReadingTime where
  chars : Nat
  words : Nat
  minutes : Nat
deriving DecidableEq

/-- JavaScript `String.prototype.split(/\s+/)`: maximal whitespace runs
separate the fields; the empty string yields one empty field, and leading
or trailing runs yield empty fields. -/
def jsSplit : List Char → List (List Char)
  | [] => [[]]
  | c :: t =>
    if isSpace c then [] :: jsSplit (t.dropWhile isSpace)
    else
      match jsSplit t with
      | [] => [[c]]
      | h :: r => (c :: h) :: r
termination_by s => s.length
decreasing_by
  · simp only [List.length_cons]
    have hdw : ∀ (q : Char → Bool) (l : List Char), (l.dropWhile q).length ≤ l.length := by
      intro q l
      induction l with
      | nil => simp
      | cons c l ih =>
        rw [List.dropWhile_cons]
        split
        · simp only [List.length_cons]
          omega
        · simp
    have := hdw isSpace t
    omega
  · simp only [List.length_cons]
    omega

/-- Reading-time computation (`calculateReadingTime`, lines 56-61):
`words = text.trim().split(/\s+/).length`, `minutes = ceil(words / 200)`,
`chars = text.length`. -/
def calculateReadingTime (text : List Char) : ReadingTime :=
  let words := (jsSplit (jsTrim text)).length
  { chars := text.length, words := words, minutes := (words + 199) / 200 }

/-- Modelled from the spec: the whitespace-delimited word count of a text,
the number of maximal nonempty runs of non-whitespace characters. -/
def wordCount : List Char → Nat
  | [] => 0
  | c :: t =>
    if isSpace c then wordCount t
    else 1 + wordCount (t.dropWhile (fun d => !isSpace d))
termination_by s => s.length
decreasing_by
  · simp only [List.length_cons]
    omega
  · simp only [List.length_cons]
    have hdw : ∀ (q : Char → Bool) (l : List Char), (l.dropWhile q).length ≤ l.length := by
      intro q l
      induction l with
      | nil => simp
      | cons c l ih =>
        rw [List.dropWhile_cons]
        split
        · simp only [List.length_cons]
          omega
        · simp
    have := hdw (fun d => !isSpace d) t
    omega

/-- Recognized render options (`RenderOptions` in types/index.ts); the code
theme is carried as its name string. -/
structure RenderOptions where
  citeStatus : Option Bool
  countStatus : Option Bool
  isMacCodeBlock : Option Bool
  isShowLineNumber : Option Bool
  legend : Option (List Char)
  codeTheme : Option (List Char)

/-- Result record of `render`. -/
structure RenderResult where
  html : List Char
  css : Option (List Char)
  readingTime : ReadingTime
deriving DecidableEq

/-- Output format discriminator of `render`. -/
inductive RFormat where
  | wechat
  | html
  | htmlPlain
deriving DecidableEq

/-- Leftmost case-insensitive occurrence of a pattern. -/
def findFirstCI (pat : List Char) : List Char → Option Nat
  | [] => if ciPre pat [] then some 0 else none
  | c :: t => if ciPre pat (c :: t) then some 0 else (findFirstCI pat t).map (· + 1)

/-- Rightmost case-insensitive occurrence of a pattern. -/
def findLastCI (pat s : List Char) : Option Nat :=
  ((List.range (s.length + 1)).filter (fun i => ciPre pat (s.drop i))).getLast?

/-- Capture of `/<body>([\s\S]*)<\/body>/i`: the text between the first
`<body>` and the last subsequent `</body>` (the group is greedy). -/
def bodyExtract (s : List Char) : Option (List Char) :=
  match findFirstCI ("<body>".toList) s with
  | none => none
  | some i =>
    match findLastCI ("</body>".toList) (s.drop (i + 6)) with
    | none => none
    | some j => some ((s.drop (i + 6)).take j)

/-- Full-document shell built by `inlineCSS` (line 180) around the fragment
and stylesheet, handed to the external `juice` transform. -/
def docWrap (html css : List Char) : List Char :=
  ("<!DOCTYPE html><html><head><style>".toList) ++ css ++
    ("</style></head><body>".toList) ++ html ++ ("</body></html>".toList)

/-- CSS inlining stage (`inlineCSS`, lines 177-197): the external `juice`
transform is a parameter; on success the body content is extracted and
trimmed (or the input returned when extraction fails), on error the
stylesheet is embedded in a style tag prepended to the fragment. -/
def inlineCSS (juiceFn : List Char → Except (List Char) (List Char))
    (html css : List Char) : List Char :=
  match juiceFn (docWrap html css) with
  | .ok result =>
    match bodyExtract result with
    | some inner => jsTrim inner
    | none => html
  | .error _ => ("<style>".toList) ++ css ++ ("</style>
".toList) ++ html

/-- External collaborators of `render`: the markdown parser (marked, option
dependent), the HTML sanitizer (DOMPurify), the CSS inliner (juice) and the
theme store lookup (`getTheme`, reduced to the theme's CSS text). -/
structure Externals where
  parse : RenderOptions → List Char → List Char
  sanitize : List Char → List Char
  juiceFn : List Char → Except (List Char) (List Char)
  store : List Char → Option (List Char)

/-- Container wrapper of the sanitized fragment (line 122). -/
def wrapContainer (inner : List Char) : List Char :=
  ("<section class=\"md-container\">".toList) ++ inner ++ ("</section>".toList)

/-- Theme stylesheet chosen by `render` (lines 127-135): the default CSS when
the id is absent, empty (falsy), or not found in the store. -/
def themeCSSOf (ext : Externals) (themeId : Option (List Char)) : List Char :=
  match themeId with
  | none => DEFAULT_THEME_CSS
  | some tid =>
    if tid = [] then DEFAULT_THEME_CSS
    else
      match ext.store tid with
      | some css => css
      | none => DEFAULT_THEME_CSS

/-- Combined stylesheet (line 138): base WeChat styles prepended to the
theme CSS. -/
def combinedCSSOf (ext : Externals) (themeId : Option (List Char)) : List Char :=
  BASE_WECHAT_CSS ++ ('\n' :: themeCSSOf ext themeId)

/-- Processed stylesheet with the code-highlight theme appended
(lines 141-152; github-dark when unspecified). -/
def processedCSSOf (ext : Externals) (themeId : Option (List Char))
    (options : RenderOptions) : List Char :=
  match options.codeTheme with
  | some ct => processCSS (combinedCSSOf ext themeId) ++ ('\n' :: getCodeThemeCSS ct)
  | none => processCSS (combinedCSSOf ext themeId) ++
      ('\n' :: getCodeThemeCSS ("github-dark".toList))

/-- Parsed, sanitized and wrapped HTML fragment (lines 113-122). -/
def wrappedHtmlOf (ext : Externals) (markdown : List Char)
    (options : RenderOptions) : List Char :=
  wrapContainer (ext.sanitize (ext.parse options markdown))

/-- Render entrypoint (`render`, lines 104-171) over the external
collaborators: parse, sanitize, wrap, pick the theme CSS (default when the
id is absent, empty, or not found), process the combined stylesheet, append
the code-theme CSS (github-dark when unspecified), then dispatch on the
format. -/
def render (ext : Externals) (markdown : List Char) (themeId : Option (List Char))
    (format : RFormat) (options : RenderOptions) : RenderResult :=
  let html0 := wrappedHtmlOf ext markdown options
  let readingTime := calculateReadingTime markdown
  let processedCSS := processedCSSOf ext themeId options
  match format with
  | RFormat.htmlPlain =>
    { html := html0, css := some processedCSS, readingTime := readingTime }
  | RFormat.wechat =>
    { html := inlineCSS ext.juiceFn html0 processedCSS, css := none,
      readingTime := readingTime }
  | RFormat.html =>
    { html := ("<style>".toList) ++ processedCSS ++ ("</style>\n".toList) ++ html0,
      css := none, readingTime := readingTime }

/-- Render call without an explicit format, mirroring the TypeScript default
`format: ... = 'wechat'`. -/
def renderDefaultFormat (ext : Externals) (markdown : List Char)
    (themeId : Option (List Char)) (options : RenderOptions) : RenderResult :=
  render ext markdown themeId RFormat.wechat options

/-- HTTP request shape relevant to authentication. -/
structure ApiRequest where
  method : List Char
  path : List Char
  apiKey : Option (List Char)

/-- Response outcomes distinguished by the model. -/
inductive ApiResponse where
  | unauthorized (msg : List Char)
  | handled (routeTag : List Char)
  | notFoundResp
deriving DecidableEq

/-- API-key middleware (`authMiddleware`): a missing key is rejected with
401; an empty configured key set accepts any key; otherwise the key must be
in the set.  `none` means the middleware calls `next()`. -/
def authMiddleware (validKeys : List (List Char)) (req : ApiRequest) :
    Option ApiResponse :=
  match req.apiKey with
  | none =>
    some (ApiResponse.unauthorized
      ("Missing API key. Please provide X-API-Key header.".toList))
  | some key =>
    if validKeys = [] then none
    else if validKeys.contains key then none
    else some (ApiResponse.unauthorized ("Invalid API key.".toList))

/-- Express mount test for `app.use('/api', ...)`: the path is `/api` or
starts with `/api/`. -/
def mountsApi (p : List Char) : Bool :=
  p = ("/api".toList) || litPre ("/api/".toList) p

/-- Routing after the middleware, in registration order (index.ts lines
22-31): the render router, the themes router, then the health handler. -/
def routeAfterAuth (req : ApiRequest) : ApiResponse :=
  if req.method = ("POST".toList) && req.path = ("/api/render".toList) then
    ApiResponse.handled ("render".toList)
  else if req.method = ("GET".toList) && req.path = ("/api/themes".toList) then
    ApiResponse.handled ("themes-list".toList)
  else if req.method = ("POST".toList) && req.path = ("/api/themes".toList) then
    ApiResponse.handled ("themes-upload".toList)
  else if (req.method = ("GET".toList) || req.method = ("DELETE".toList))
      && litPre ("/api/themes/".toList) req.path then
    ApiResponse.handled ("themes-id".toList)
  else if req.method = ("GET".toList) && req.path = ("/api/health".toList) then
    ApiResponse.handled ("health".toList)
  else ApiResponse.notFoundResp

/-- Express app model (index.ts lines 18-31): `app.use('/api',
authMiddleware)` is registered BEFORE every route, including the
`/api/health` handler, so the middleware runs first on every `/api` path. -/
def app (validKeys : List (List Char)) (req : ApiRequest) : ApiResponse :=
  if mountsApi req.path then
    match authMiddleware validKeys req with
    | some resp => resp
    | none => routeAfterAuth req
  else ApiResponse.notFoundResp

/-- Stored metadata record of one theme (`ThemeMetadata`). -/
structure ThemeMetadata where
  id : List Char
  name : List Char
  createdAt : List Char
  updatedAt : List Char
deriving DecidableEq

/-- On-disk state of the theme store: the `metadata.json` object (an
insertion-ordered map from id to record) and the `{id}.css` files. -/
structure ThemeStoreState where
  metadata : List (List Char × ThemeMetadata)
  cssFiles : List (List Char × List Char)
deriving DecidableEq

/-- Association-list lookup (JavaScript object property access). -/
def alookup {β : Type} : List (List Char × β) → List Char → Option β
  | [], _ => none
  | (k', v) :: t, k => if k' = k then some v else alookup t k

/-- Association-list key removal (JavaScript `delete obj[k]`, and file
unlink with a missing file ignored). -/
def aerase {β : Type} (l : List (List Char × β)) (k : List Char) :
    List (List Char × β) :=
  l.filter (fun p => !(p.1 == k))

/-- Theme deletion (`deleteTheme`, themeStore.ts lines 325-346): an unknown
id returns false and writes nothing; otherwise the CSS file is unlinked
(missing file ignored), the metadata entry removed and the metadata saved. -/
def deleteTheme (st : ThemeStoreState) (id : List Char) : Bool × ThemeStoreState :=
  match alookup st.metadata id with
  | none => (false, st)
  | some _ =>
    (true, { metadata := aerase st.metadata id, cssFiles := aerase st.cssFiles id })

/-- Hypothesis of the amended no-leaked-variables claim: every occurrence of
`var(--` in the text entering the final sweep is a well-formed `var(--name)`
reference, one the sweep's regex matches. -/
def sweepSafe (s : List Char) : Prop :=
  ∀ i, i < s.length → ("var(--".toList) <+: s.drop i → (mSweep (s.drop i)).isSome = true

instance (s : List Char) : Decidable (sweepSafe s) := by
  unfold sweepSafe
  infer_instance

/-- Case-insensitive substring test (linear scan over all suffixes). -/
def hasCI (pat : List Char) : List Char → Bool
  | [] => ciPre pat []
  | c :: t => ciPre pat (c :: t) || hasCI pat t

/-- Executable substring test (linear scan; decides the infix relation). -/
def hasSub (pat : List Char) : List Char → Bool
  | [] => litPre pat []
  | c :: t => litPre pat (c :: t) || hasSub pat t

/-- Fuelled twin of `replaceAllC` in structural recursion, for concrete
evaluation inside the kernel; the fuel always covers the text length. -/
def replaceAllCF (m : List Char → Option Nat) (r : List Char) :
    Nat → List Char → List Char
  | _, [] => []
  | 0, s => s
  | fuel + 1, c :: t =>
    match m (c :: t) with
    | some n => r ++ replaceAllCF m r fuel (t.drop (n - 1))
    | none => c :: replaceAllCF m r fuel t

/-- Fuelled twin of `patchGo`. -/
def patchGoF (s : List Char) : Nat → List Char → Nat → List Char
  | _, [], _ => []
  | 0, r, _ => r
  | fuel + 1, c :: t, i =>
    match mDB (c :: t) with
    | some n =>
      (if liLookback s i then liItemRepl else (c :: t).take n) ++
        patchGoF s fuel (t.drop (n - 1)) (i + n)
    | none => c :: patchGoF s fuel t (i + 1)

/-- Fuelled twin of `patchListDisplay`. -/
def patchListDisplayF (s : List Char) : List Char := patchGoF s s.length s 0

/-- Fuelled twin of `jsSplit`. -/
def jsSplitF : Nat → List Char → List (List Char)
  | _, [] => [[]]
  | 0, s => [s]
  | fuel + 1, c :: t =>
    if isSpace c then [] :: jsSplitF fuel (t.dropWhile isSpace)
    else
      match jsSplitF fuel t with
      | [] => [[c]]
      | h :: r => (c :: h) :: r

/-- Fuelled twin of `wordCount`. -/
def wordCountF : Nat → List Char → Nat
  | _, [] => 0
  | 0, _ => 0
  | fuel + 1, c :: t =>
    if isSpace c then wordCountF fuel t
    else 1 + wordCountF fuel (t.dropWhile (fun d => !isSpace d))

/-- Fuelled twin of `substVars`. -/
def substVarsF (table : List (List Char × List Char)) (css : List Char) : List Char :=
  table.foldl (fun acc p => replaceAllCF (mVarSub p.1) p.2 acc.length acc) css

/-- Fuelled twin of `preSweep`. -/
def preSweepF (css : List Char) : List Char :=
  let table := cssVariables css
  let p1 := substVarsF table css
  let p2 := containerPrefix table ++ p1
  let p3 := replaceAllCF mRoot [] p2.length p2
  let p4 := patchListDisplayF p3
  let p5 := replaceAllCF (mHslVar ("--foreground".toList)) ("hsl(0, 0%, 3.9%)".toList)
    p4.length p4
  let p6 := replaceAllCF (mHslVar ("--background".toList)) ("hsl(0, 0%, 100%)".toList)
    p5.length p5
  let p7 := replaceAllCF (mVarTol ("--blockquote-background".toList))
    ("rgba(0,0,0,0.03)".toList) p6.length p6
  let p8 := replaceAllCF (mVarTol ("--foreground".toList)) ("0 0% 3.9%".toList)
    p7.length p7
  replaceAllCF (mVarTol ("--background".toList)) ("0 0% 100%".toList) p8.length p8

/-- Fuelled twin of `processCSS`. -/
def processCSSF (css : List Char) : List Char :=
  replaceAllCF mSweep ("inherit".toList) (preSweepF css).length (preSweepF css)

/-- Fuelled twin of `calculateReadingTime`. -/
def calculateReadingTimeF (text : List Char) : ReadingTime :=
  let words := (jsSplitF (jsTrim text).length (jsTrim text)).length
  { chars := text.length, words := words, minutes := (words + 199) / 200 }

/-- Fuelled twin of `processedCSSOf`. -/
def processedCSSOfF (ext : Externals) (themeId : Option (List Char))
    (options : RenderOptions) : List Char :=
  match options.codeTheme with
  | some ct => processCSSF (combinedCSSOf ext themeId) ++ ('\n' :: getCodeThemeCSS ct)
  | none => processCSSF (combinedCSSOf ext themeId) ++
      ('\n' :: getCodeThemeCSS ("github-dark".toList))

/-- Identity markdown parser used as a concrete external collaborator. -/
def idParse : RenderOptions → List Char → List Char := fun _ md => md

/-- Identity sanitizer used as a concrete external collaborator. -/
def idSanitize : List Char → List Char := fun h => h

/-- Inliner stub that always succeeds with a fixed document. -/
def okJuice : List Char → Except (List Char) (List Char) :=
  fun _ => Except.ok (("<body>ok</body>").toList)

/-- Inliner stub that always raises. -/
def errJuice : List Char → Except (List Char) (List Char) :=
  fun _ => Except.error (("boom").toList)

/-- Theme store stub with no themes. -/
def noStore : List Char → Option (List Char) := fun _ => none

/-- Theme store stub holding one tiny stylesheet under every id. -/
def smallStore : List Char → Option (List Char) :=
  fun _ => some (("p \x7b color: red; \x7d").toList)

/-- Concrete collaborators for witnesses: successful inliner. -/
def extOk : Externals :=
  { parse := idParse, sanitize := idSanitize, juiceFn := okJuice, store := smallStore }

/-- Concrete collaborators for witnesses: failing inliner. -/
def extErr : Externals :=
  { parse := idParse, sanitize := idSanitize, juiceFn := errJuice, store := smallStore }

/-- Options record with every field unset. -/
def emptyOptions : RenderOptions :=
  { citeStatus := none, countStatus := none, isMacCodeBlock := none,
    isShowLineNumber := none, legend := none, codeTheme := none }

/-- Prefixes of a list are its initial `take`. -/
theorem pfx_eq_take {p l : List Char} (h : p <+: l) : p = l.take p.length := by
  obtain ⟨t, rfl⟩ := h
  exact (List.take_left p t).symm

/-- Initial segments are prefixes. -/
theorem take_pfx (n : Nat) (l : List Char) : l.take n <+: l :=
  ⟨l.drop n, List.take_append_drop n l⟩

/-- Terminal segments are suffixes. -/
theorem drop_sfx (n : Nat) (l : List Char) : l.drop n <:+ l :=
  ⟨l.take n, List.take_append_drop n l⟩

/-- Suffixes of a concrete list are exactly its `drop`s. -/
theorem sfx_iff_drop {b q : List Char} : b <:+ q ↔ ∃ k, k ≤ q.length ∧ q.drop k = b := by
  constructor
  · rintro ⟨s, rfl⟩
    exact ⟨s.length, by simp, List.drop_left s b⟩
  · rintro ⟨k, _, rfl⟩
    exact drop_sfx k q

/-- Infix occurrences are prefixes of a `drop`. -/
theorem infix_iff_drop {p l : List Char} : p <:+: l ↔ ∃ i, p <+: l.drop i := by
  constructor
  · rintro ⟨u, v, rfl⟩
    refine ⟨u.length, ⟨v, ?_⟩⟩
    rw [List.append_assoc, List.drop_left]
  · rintro ⟨i, t, ht⟩
    exact ⟨l.take i, t, by rw [List.append_assoc, ht, List.take_append_drop]⟩

/-- Occurrences inside a suffix are occurrences. -/
theorem infix_of_drop {p l : List Char} {i : Nat} (h : p <:+: l.drop i) : p <:+: l := by
  obtain ⟨u, v, huv⟩ := h
  exact ⟨l.take i ++ u, v, by rw [List.append_assoc, List.append_assoc, ← List.append_assoc u,
    huv, List.take_append_drop]⟩

/-- Characters of an infix belong to the list. -/
theorem infix_mem {p l : List Char} (h : p <:+: l) {x : Char} (hx : x ∈ p) : x ∈ l := by
  obtain ⟨u, v, rfl⟩ := h
  simp only [List.mem_append]
  exact Or.inl (Or.inr hx)

/-- Characters of a suffix belong to the list. -/
theorem sfx_mem {p l : List Char} (h : p <:+ l) {x : Char} (hx : x ∈ p) : x ∈ l := by
  obtain ⟨u, rfl⟩ := h
  simp only [List.mem_append]
  exact Or.inr hx

/-- Decomposition of an occurrence in an appended list: entirely left,
entirely right, or spanning the boundary. -/
theorem infix_append_elim {p a b : List Char} (h : p <:+: a ++ b) :
    p <:+: a ∨ p <:+: b ∨
      ∃ p₁ p₂, p = p₁ ++ p₂ ∧ p₁ ≠ [] ∧ p₂ ≠ [] ∧ p₁ <:+ a ∧ p₂ <+: b := by
  obtain ⟨u, v, huv⟩ := h
  rw [List.append_assoc] at huv
  rcases List.append_eq_append_iff.mp huv with ⟨a', ha, hpv⟩ | ⟨c', hu, hb⟩
  · rcases List.append_eq_append_iff.mp hpv with ⟨w, ha', hv⟩ | ⟨w, hp, hb'⟩
    · exact Or.inl ⟨u, w, by rw [ha, ha', List.append_assoc]⟩
    · by_cases hw : w = []
      · subst hw
        rw [List.append_nil] at hp
        exact Or.inl ⟨u, [], by rw [List.append_nil, ha, hp]⟩
      · by_cases hae : a' = []
        · subst hae
          rw [List.nil_append] at hp
          exact Or.inr (Or.inl ⟨[], v, by rw [List.nil_append, hp, hb']⟩)
        · exact Or.inr (Or.inr ⟨a', w, hp, hae, hw, ⟨u, ha.symm⟩, ⟨v, hb'.symm⟩⟩)
  · exact Or.inr (Or.inl ⟨c', v, by rw [hb, List.append_assoc]⟩)

/-- Occurrence in a cons: either at the head or in the tail. -/
theorem infix_cons_elim {p : List Char} {c : Char} {l : List Char}
    (h : p <:+: c :: l) : p <+: c :: l ∨ p <:+: l := by
  obtain ⟨u, v, huv⟩ := h
  cases u with
  | nil => exact Or.inl ⟨v, by simpa using huv⟩
  | cons x u' =>
    simp only [List.cons_append, List.cons.injEq] at huv
    exact Or.inr ⟨u', v, huv.2⟩

/-- Comparable prefixes: the shorter of two prefixes of the same list is a
prefix of the longer. -/
theorem pfx_comparable {p q l : List Char} (hp : p <+: l) (hq : q <+: l)
    (hlen : p.length ≤ q.length) : p <+: q := by
  rw [pfx_eq_take hq]
  have hpq : p = (l.take q.length).take p.length := by
    rw [List.take_take, min_eq_left hlen]
    exact pfx_eq_take hp
  rw [hpq]
  exact take_pfx _ _

/-- Short prefixes of an appended list are prefixes of the left part. -/
theorem pfx_append_short {w c d : List Char} (h : w.length ≤ c.length) :
    w <+: c ++ d ↔ w <+: c := by
  constructor
  · intro hw
    exact pfx_comparable hw ⟨d, rfl⟩ h
  · rintro ⟨t, rfl⟩
    exact ⟨t ++ d, by rw [List.append_assoc]⟩

/-- Short suffixes of an appended list are suffixes of the right part. -/
theorem sfx_append_short {w c d : List Char} (h : w.length ≤ d.length) :
    w <:+ c ++ d ↔ w <:+ d := by
  constructor
  · rintro ⟨s, hs⟩
    have hsl : c.length ≤ s.length := by
      have := congrArg List.length hs
      simp only [List.length_append] at this
      omega
    have h2 := congrArg (List.drop c.length) hs
    rw [List.drop_append_eq_append_drop, List.drop_left,
      Nat.sub_eq_zero_of_le hsl, List.drop_zero] at h2
    exact ⟨s.drop c.length, h2⟩
  · rintro ⟨s, rfl⟩
    exact ⟨c ++ s, by rw [List.append_assoc]⟩

/-- Absence of a pattern in an appended list, given absence on both sides and
refutation of every boundary split. -/
theorem noInfix_append {p a b : List Char} (ha : ¬ p <:+: a) (hb : ¬ p <:+: b)
    (hk : ∀ k, 0 < k → k < p.length → ¬ (p.take k <:+ a ∧ p.drop k <+: b)) :
    ¬ p <:+: a ++ b := by
  intro h
  rcases infix_append_elim h with h1 | h2 | ⟨p₁, p₂, heq, h1ne, h2ne, hsfx, hpfx⟩
  · exact ha h1
  · exact hb h2
  · refine hk p₁.length (by cases p₁ <;> simp_all) ?_ ⟨?_, ?_⟩
    · rw [heq, List.length_append]
      cases p₂ <;> simp_all
    · rw [heq, List.take_left]
      exact hsfx
    · rw [heq, List.drop_left]
      exact hpfx

/-- Empty input of the global replacement. -/
theorem replaceAllC_nil (m : List Char → Option Nat) (r : List Char) :
    replaceAllC m r [] = [] := by
  simp [replaceAllC]

/-- Step of the global replacement when the regex matches here. -/
theorem replaceAllC_fire (m : List Char → Option Nat) (r : List Char)
    {c : Char} {t : List Char} {n : Nat} (h : m (c :: t) = some n) :
    replaceAllC m r (c :: t) = r ++ replaceAllC m r (t.drop (n - 1)) := by
  rw [replaceAllC]
  simp [h]

/-- Step of the global replacement when the regex does not match here. -/
theorem replaceAllC_skip (m : List Char → Option Nat) (r : List Char)
    {c : Char} {t : List Char} (h : m (c :: t) = none) :
    replaceAllC m r (c :: t) = c :: replaceAllC m r t := by
  rw [replaceAllC]
  simp [h]

/-- A replacement whose regex matches nowhere in the text is the identity. -/
theorem replaceAllC_id (m : List Char → Option Nat) (r : List Char)
    {s : List Char} (h : ∀ i, m (s.drop i) = none) : replaceAllC m r s = s := by
  induction s using replaceAllC.induct m r with
  | case1 => exact replaceAllC_nil m r
  | case2 c t n hm ih =>
    have h0 := h 0
    rw [List.drop_zero] at h0
    rw [h0] at hm
    cases hm
  | case3 c t hm ih =>
    rw [replaceAllC_skip m r hm]
    have ht : ∀ i, m (t.drop i) = none := fun i => by
      have := h (i + 1)
      rwa [List.drop_succ_cons] at this
    rw [ih ht]

/-- A pattern that shares no end with the replacement string and survives as a
prefix of the replacement's output was already a prefix of the input:
the scan can never have fired while the pattern was being traversed. -/
theorem pfx_replaceAllC (m : List Char → Option Nat) {r : List Char} :
    ∀ {s q : List Char},
      (∀ k, k < q.length → ¬ (q.drop k <+: r) ∧ ¬ (r <+: q.drop k)) →
      q <+: replaceAllC m r s → q <+: s := by
  intro s
  induction s using replaceAllC.induct m r with
  | case1 =>
    intro q _ h
    rwa [replaceAllC_nil] at h
  | case2 c t n hm ih =>
    intro q hq hpre
    rw [replaceAllC_fire m r hm] at hpre
    match q, hq with
    | [], _ => exact List.nil_prefix
    | qh :: q', hq =>
      have hq0 := hq 0 (by simp)
      rw [List.drop_zero] at hq0
      by_cases hlen : (qh :: q').length ≤ r.length
      · exact absurd (pfx_comparable hpre ⟨_, rfl⟩ hlen) hq0.1
      · exact absurd (pfx_comparable ⟨_, rfl⟩ hpre (by omega)) hq0.2
  | case3 c t hm ih =>
    intro q hq hpre
    rw [replaceAllC_skip m r hm] at hpre
    match q, hq with
    | [], _ => exact List.nil_prefix
    | qh :: q', hq =>
      obtain ⟨rfl, hq'⟩ := List.cons_prefix_cons.mp hpre
      have hq'cond : ∀ k, k < q'.length → ¬ (q'.drop k <+: r) ∧ ¬ (r <+: q'.drop k) := by
        intro k hk
        have := hq (k + 1) (by simp; omega)
        rwa [List.drop_succ_cons] at this
      exact List.cons_prefix_cons.mpr ⟨rfl, ih hq'cond hq'⟩

/-- Replacement of every occurrence: if the regex matches wherever the
pattern `p` occurs, the output contains no occurrence of `p` at all. -/
theorem noInfix_replaceAllC_fires (m : List Char → Option Nat) {r p : List Char}
    (ho : NoOverlap p r) :
    ∀ {s : List Char}, (∀ i, p <+: s.drop i → (m (s.drop i)).isSome = true) →
      ¬ p <:+: replaceAllC m r s := by
  obtain ⟨hr, hp, hhead, htail⟩ := ho
  intro s
  induction s using replaceAllC.induct m r with
  | case1 =>
    intro _ hinf
    rw [replaceAllC_nil] at hinf
    obtain ⟨u, v, huv⟩ := hinf
    simp only [List.append_eq_nil] at huv
    exact hp huv.1.2
  | case2 c t n hm ih =>
    intro hfire hinf
    rw [replaceAllC_fire m r hm] at hinf
    rcases infix_append_elim hinf with h1 | h2 | ⟨p₁, p₂, heq, h1ne, _, h1sfx, _⟩
    · match p, hp with
      | ph :: p', _ => exact hhead (infix_mem h1 (by simp))
    · have hfire' : ∀ i, p <+: ((t.drop (n - 1)).drop i) →
          (m ((t.drop (n - 1)).drop i)).isSome = true := by
        intro i hp2
        have e : (t.drop (n - 1)).drop i = (c :: t).drop (i + (n - 1) + 1) := by
          rw [List.drop_drop, List.drop_succ_cons]
          congr 1
          omega
        rw [e] at hp2 ⊢
        exact hfire _ hp2
      exact ih hfire' h2
    · match p₁, h1ne with
      | q1 :: p₁', _ =>
        have : p.headI = q1 := by rw [heq]; rfl
        rw [this] at hhead
        exact hhead (sfx_mem h1sfx (by simp))
  | case3 c t hm ih =>
    intro hfire hinf
    rw [replaceAllC_skip m r hm] at hinf
    have hnp : ¬ p <+: (c :: t) := by
      intro hp'
      have := hfire 0 (by rwa [List.drop_zero])
      rw [List.drop_zero, hm] at this
      cases this
    rcases infix_cons_elim hinf with hpre | hintail
    · match p, hp, hhead, htail with
      | ph :: p', _, hhead, htail =>
        obtain ⟨rfl, hq'⟩ := List.cons_prefix_cons.mp hpre
        have : p' <+: t := pfx_replaceAllC m htail hq'
        exact hnp (List.cons_prefix_cons.mpr ⟨rfl, this⟩)
    · have hfire' : ∀ i, p <+: (t.drop i) → (m (t.drop i)).isSome = true := by
        intro i hp2
        rw [← List.drop_succ_cons (n := i) (a := c)] at hp2 ⊢
        exact hfire _ hp2
      exact ih hfire' hintail

/-- Preservation of absence: a replacement whose string cannot splice with the
pattern `p` never creates a new occurrence of `p`. -/
theorem noInfix_replaceAllC_noNew (m : List Char → Option Nat) {r p : List Char}
    (ho : NoOverlap p r) :
    ∀ {s : List Char}, ¬ p <:+: s → ¬ p <:+: replaceAllC m r s := by
  obtain ⟨hr, hp, hhead, htail⟩ := ho
  intro s
  induction s using replaceAllC.induct m r with
  | case1 =>
    intro hs hinf
    rw [replaceAllC_nil] at hinf
    exact hs hinf
  | case2 c t n hm ih =>
    intro hs hinf
    rw [replaceAllC_fire m r hm] at hinf
    rcases infix_append_elim hinf with h1 | h2 | ⟨p₁, p₂, heq, h1ne, _, h1sfx, _⟩
    · match p, hp with
      | ph :: p', _ => exact hhead (infix_mem h1 (by simp))
    · refine ih (fun hd => hs ?_) h2
      have : p <:+: t := infix_of_drop hd
      obtain ⟨u, v, huv⟩ := this
      exact ⟨c :: u, v, by rw [← huv]; rfl⟩
    · match p₁, h1ne with
      | q1 :: p₁', _ =>
        have : p.headI = q1 := by rw [heq]; rfl
        rw [this] at hhead
        exact hhead (sfx_mem h1sfx (by simp))
  | case3 c t hm ih =>
    intro hs hinf
    rw [replaceAllC_skip m r hm] at hinf
    rcases infix_cons_elim hinf with hpre | hintail
    · match p, hp, hhead, htail with
      | ph :: p', _, hhead, htail =>
        obtain ⟨rfl, hq'⟩ := List.cons_prefix_cons.mp hpre
        have hpt : p' <+: t := pfx_replaceAllC m htail hq'
        obtain ⟨w, hw⟩ := List.cons_prefix_cons.mpr (⟨rfl, hpt⟩ :
          ph = ph ∧ p' <+: t)
        exact hs ⟨[], w, by rw [List.nil_append, hw]⟩
    · refine ih (fun hd => hs ?_) hintail
      obtain ⟨u, v, huv⟩ := hd
      exact ⟨c :: u, v, by rw [← huv]; rfl⟩

/-- Text of the `display: block` declaration in canonical spacing. -/
def dbText : List Char := "display: block".toList

/-- Empty input of the patch scanner. -/
theorem patchGo_nil (s : List Char) (i : Nat) : patchGo s [] i = [] := by
  simp [patchGo]

/-- Step of the patch scanner at a `display: block` match. -/
theorem patchGo_fire {s : List Char} {c : Char} {t : List Char} {i n : Nat}
    (h : mDB (c :: t) = some n) :
    patchGo s (c :: t) i =
      (if liLookback s i then liItemRepl else (c :: t).take n) ++
        patchGo s (t.drop (n - 1)) (i + n) := by
  rw [patchGo]
  simp [h]

/-- Step of the patch scanner elsewhere. -/
theorem patchGo_skip {s : List Char} {c : Char} {t : List Char} {i : Nat}
    (h : mDB (c :: t) = none) :
    patchGo s (c :: t) i = c :: patchGo s t (i + 1) := by
  rw [patchGo]
  simp [h]

/-- Matchers built from a leading case-insensitive literal consume at least
that literal. -/
theorem pSeq_litCI_ge {lit : List Char} {q : List Char → Option Nat}
    {u : List Char} {n : Nat} (h : pSeq (pLitCI lit) q u = some n) :
    lit.length ≤ n := by
  unfold pSeq at h
  rcases Option.bind_eq_some.mp h with ⟨a, hp, hmap⟩
  rcases Option.map_eq_some'.mp hmap with ⟨k, _, rfl⟩
  unfold pLitCI at hp
  by_cases hc : ciPre lit u = true
  · rw [if_pos hc] at hp
    injection hp with hp
    omega
  · rw [if_neg hc] at hp
    cases hp

/-- A `display\s*:\s*block` match spans at least one character. -/
theorem mDB_pos {u : List Char} {n : Nat} (h : mDB u = some n) : 1 ≤ n := by
  have := pSeq_litCI_ge h
  simp at this
  omega

/-- Dropping at least one character from a cons. -/
theorem drop_cons_of_pos {c : Char} {t : List Char} {n : Nat} (h : 1 ≤ n) :
    (c :: t).drop n = t.drop (n - 1) := by
  cases n with
  | zero => omega
  | succ k => simp [List.drop_succ_cons]

/-- The list-display patcher is the identity when no `display: block` match
has a lookback window containing an unclosed `li {`. -/
theorem patchGo_id {s : List Char}
    (h : ∀ j, (mDB (s.drop j)).isSome = true → liLookback s j = false) :
    ∀ {r : List Char} {i : Nat}, r = s.drop i → patchGo s r i = r := by
  intro r i
  induction r, i using patchGo.induct s with
  | case1 i => intro _; exact patchGo_nil s i
  | case2 c t i n hm ih =>
    intro hri
    rw [patchGo_fire hm]
    have hlb : liLookback s i = false := by
      refine h i ?_
      rw [← hri, hm]
      rfl
    rw [hlb]
    have hn := mDB_pos hm
    have hdrop : t.drop (n - 1) = s.drop (i + n) := by
      rw [← List.drop_drop, ← hri, drop_cons_of_pos hn]
    rw [if_neg (by simp), ih hdrop]
    rw [← drop_cons_of_pos hn, List.take_append_drop]
  | case3 c t i hm ih =>
    intro hri
    rw [patchGo_skip hm]
    have hdrop : t = s.drop (i + 1) := by
      rw [← List.drop_drop, ← hri, List.drop_one, List.tail_cons]
    rw [ih hdrop]

/-- Copying phase of the patch scanner: a segment in which the regex never
matches is emitted unchanged. -/
theorem patchGo_copy {s : List Char} :
    ∀ (a : List Char) {b : List Char} {i : Nat},
      (∀ j, j < a.length → mDB (s.drop (i + j)) = none) →
      a ++ b = s.drop i →
      patchGo s (a ++ b) i = a ++ patchGo s b (i + a.length) := by
  intro a
  induction a with
  | nil =>
    intro b i _ _
    simp
  | cons x a' ih =>
    intro b i hnone hab
    have h0 : mDB (x :: (a' ++ b)) = none := by
      have := hnone 0 (by simp)
      rwa [Nat.add_zero, ← hab] at this
    rw [List.cons_append, patchGo_skip h0]
    have hab' : a' ++ b = s.drop (i + 1) := by
      rw [← List.drop_drop, ← hab, List.drop_one]
      rfl
    have hnone' : ∀ j, j < a'.length → mDB (s.drop ((i + 1) + j)) = none := by
      intro j hj
      have := hnone (j + 1) (by simp only [List.length_cons]; omega)
      rwa [show i + (j + 1) = (i + 1) + j by omega] at this
    rw [ih hnone' hab']
    simp only [List.cons_append, List.length_cons]
    rw [show i + (a'.length + 1) = i + 1 + a'.length from by omega]

/-- Equation of `wordCount` on the empty list. -/
theorem wordCount_nil : wordCount [] = 0 := by
  simp [wordCount]

/-- Equation of `wordCount` at a whitespace head. -/
theorem wordCount_cons_ws {c : Char} {t : List Char} (h : isSpace c = true) :
    wordCount (c :: t) = wordCount t := by
  rw [wordCount]
  simp [h]

/-- Equation of `wordCount` at a non-whitespace head. -/
theorem wordCount_cons_nonws {c : Char} {t : List Char} (h : isSpace c = false) :
    wordCount (c :: t) = 1 + wordCount (t.dropWhile (fun d => !isSpace d)) := by
  rw [wordCount]
  simp [h]

/-- Equation of `jsSplit` on the empty list. -/
theorem jsSplit_nil : jsSplit [] = [[]] := by
  simp [jsSplit]

/-- Equation of `jsSplit` at a whitespace head. -/
theorem jsSplit_cons_ws {c : Char} {t : List Char} (h : isSpace c = true) :
    jsSplit (c :: t) = [] :: jsSplit (t.dropWhile isSpace) := by
  rw [jsSplit]
  simp [h]

/-- Fields of `jsSplit` are never absent. -/
theorem jsSplit_ne_nil (s : List Char) : jsSplit s ≠ [] := by
  match s with
  | [] =>
    rw [jsSplit_nil]
    simp
  | c :: t =>
    rw [jsSplit]
    by_cases h : isSpace c = true
    · simp [h]
    · simp only [h, Bool.false_eq_true, if_false]
      cases hj : jsSplit t with
      | nil => simp
      | cons a b => simp [hj]

/-- Field count of `jsSplit` at a non-whitespace head. -/
theorem jsSplit_length_cons_nonws {c : Char} {t : List Char} (h : isSpace c = false) :
    (jsSplit (c :: t)).length = (jsSplit t).length := by
  rw [jsSplit]
  simp only [h]
  cases hj : jsSplit t with
  | nil => exact absurd hj (jsSplit_ne_nil t)
  | cons a b => simp

/-- An all-whitespace text has no words. -/
theorem wordCount_all_ws {w : List Char} (h : ∀ c ∈ w, isSpace c = true) :
    wordCount w = 0 := by
  induction w with
  | nil => exact wordCount_nil
  | cons c t ih =>
    rw [wordCount_cons_ws (h c (by simp))]
    exact ih (fun d hd => h d (by simp [hd]))

/-- Leading whitespace does not change the word count. -/
theorem wordCount_dropWhile_ws (t : List Char) :
    wordCount (t.dropWhile isSpace) = wordCount t := by
  induction t with
  | nil => rfl
  | cons c t ih =>
    rw [List.dropWhile_cons]
    by_cases h : isSpace c = true
    · rw [if_pos h, ih, wordCount_cons_ws h]
    · rw [if_neg h]

/-- The head produced by `dropWhile` fails the predicate. -/
theorem dropWhile_head_not {p : Char → Bool} {l : List Char} {c : Char}
    {t : List Char} (h : l.dropWhile p = c :: t) : p c = false := by
  induction l with
  | nil => cases h
  | cons x l ih =>
    rw [List.dropWhile_cons] at h
    by_cases hx : p x = true
    · rw [if_pos hx] at h
      exact ih h
    · rw [if_neg hx] at h
      cases h
      simpa using hx

/-- Trailing whitespace does not change the word count. -/
theorem wordCount_append_ws {w : List Char} (hw : ∀ c ∈ w, isSpace c = true) :
    ∀ (n : Nat) (t : List Char), t.length ≤ n → wordCount (t ++ w) = wordCount t := by
  intro n
  induction n with
  | zero =>
    intro t ht
    have : t = [] := by cases t <;> simp_all
    subst this
    rw [List.nil_append, wordCount_nil]
    exact wordCount_all_ws hw
  | succ n ih =>
    intro t ht
    match t with
    | [] =>
      rw [List.nil_append, wordCount_nil]
      exact wordCount_all_ws hw
    | c :: t' =>
      by_cases hc : isSpace c = true
      · rw [List.cons_append, wordCount_cons_ws hc, wordCount_cons_ws hc]
        exact ih t' (by simp at ht; omega)
      · have hc' : isSpace c = false := by simpa using hc
        rw [List.cons_append, wordCount_cons_nonws hc', wordCount_cons_nonws hc']
        congr 1
        rw [List.dropWhile_append]
        by_cases he : (t'.dropWhile (fun d => !isSpace d)).isEmpty = true
        · rw [if_pos he]
          have ht' : t'.dropWhile (fun d => !isSpace d) = [] := by
            simpa [List.isEmpty_iff] using he
          rw [ht']
          rw [wordCount_nil]
          cases hw2 : w.dropWhile (fun d => !isSpace d) with
          | nil => rw [wordCount_nil]
          | cons d w' =>
            have hd : (!isSpace d) = false := dropWhile_head_not hw2
            have : w.dropWhile (fun d => !isSpace d) <:+ w := List.dropWhile_suffix _
            rw [hw2] at this
            exact wordCount_all_ws (fun e he' => hw e (sfx_mem this he'))
        · rw [if_neg he]
          have hlen : (t'.dropWhile (fun d => !isSpace d)).length ≤ n := by
            have h1 : ∀ (q : Char → Bool) (l : List Char),
                (l.dropWhile q).length ≤ l.length := by
              intro q l
              induction l with
              | nil => simp
              | cons x l ihl =>
                rw [List.dropWhile_cons]
                split
                · simp only [List.length_cons]
                  omega
                · simp
            have := h1 (fun d => !isSpace d) t'
            simp only [List.length_cons] at ht
            omega
          exact ih _ hlen

/-- Prepending non-whitespace characters does not change the field count of
the split: they accumulate into the first field. -/
theorem jsSplit_length_prepend_nonws {w : List Char}
    (hw : ∀ c ∈ w, isSpace c = false) (u : List Char) :
    (jsSplit (w ++ u)).length = (jsSplit u).length := by
  induction w with
  | nil => rw [List.nil_append]
  | cons x w' ih =>
    rw [List.cons_append, jsSplit_length_cons_nonws (hw x (by simp))]
    exact ih (fun d hd => hw d (by simp [hd]))

/-- Last element of an appended list with a nonempty right part. -/
theorem getLast?_append_ne {u : List Char} (pre : List Char) (h : u ≠ []) :
    (pre ++ u).getLast? = u.getLast? := by
  induction pre with
  | nil => rfl
  | cons x p ih =>
    rw [List.cons_append]
    cases hpu : p ++ u with
    | nil =>
      exfalso
      exact h (List.append_eq_nil.mp hpu).2
    | cons y rest =>
      rw [List.getLast?_cons_cons, ← hpu]
      exact ih

/-- Field count of the split of a text whose last character is not
whitespace: the word count, plus one empty leading field when the text is
empty or opens with whitespace. -/
theorem jsSplit_length_eq :
    ∀ (n : Nat) (v : List Char), v.length ≤ n →
      (∀ c, v.getLast? = some c → isSpace c = false) →
      (jsSplit v).length =
        wordCount v + (if v = [] then 1 else if isSpace v.headI then 1 else 0) := by
  intro n
  induction n with
  | zero =>
    intro v hv _
    have : v = [] := by cases v <;> simp_all
    subst this
    rw [jsSplit_nil, wordCount_nil]
    simp
  | succ n ih =>
    intro v hv hlast
    match v with
    | [] =>
      rw [jsSplit_nil, wordCount_nil]
      simp
    | c :: t =>
      have hlenDW : ∀ (q : Char → Bool) (l : List Char),
          (l.dropWhile q).length ≤ l.length := by
        intro q l
        induction l with
        | nil => simp
        | cons y l ihl =>
          rw [List.dropWhile_cons]
          split
          · simp only [List.length_cons]
            omega
          · simp
      by_cases hc : isSpace c = true
      · rw [jsSplit_cons_ws hc, wordCount_cons_ws hc]
        simp only [List.length_cons, List.headI_cons, hc, if_pos, List.cons_ne_nil,
          if_neg, if_true]
        have hgoal : (jsSplit (t.dropWhile isSpace)).length = wordCount t := by
          cases hu : t.dropWhile isSpace with
          | nil =>
            exfalso
            have hall : ∀ d ∈ (c :: t), isSpace d = true := by
              intro d hd
              rcases List.mem_cons.mp hd with rfl | hdt
              · exact hc
              · by_contra hdns
                have hmem : d ∈ t.dropWhile isSpace ∨ d ∈ t.takeWhile isSpace := by
                  have htd := List.takeWhile_append_dropWhile (p := isSpace) (l := t)
                  rw [← htd] at hdt
                  rcases List.mem_append.mp hdt with h1 | h2
                  · exact Or.inr h1
                  · exact Or.inl h2
                rcases hmem with h1 | h2
                · rw [hu] at h1
                  cases h1
                · exact hdns (List.mem_takeWhile_imp h2)
            obtain ⟨x, hx⟩ : ∃ x, (c :: t).getLast? = some x :=
              ⟨(c :: t).getLast (by simp), List.getLast?_eq_getLast _ _⟩
            have hxws : isSpace x = true := hall x (List.mem_of_mem_getLast? hx)
            rw [hlast x hx] at hxws
            cases hxws
          | cons d u' =>
            have hlen : (t.dropWhile isSpace).length ≤ n := by
              have := hlenDW isSpace t
              simp only [List.length_cons] at hv
              omega
            have hlast' : ∀ e, (t.dropWhile isSpace).getLast? = some e →
                isSpace e = false := by
              intro e he
              have hsfx : t.dropWhile isSpace <:+ t := List.dropWhile_suffix _
              obtain ⟨pre, hpre⟩ := hsfx
              have hte : t.getLast? = some e := by
                rw [← hpre, getLast?_append_ne pre (by rw [hu]; simp)]
                exact he
              refine hlast e ?_
              rw [← List.singleton_append,
                getLast?_append_ne [c] (by intro hne; rw [hne] at hte; simp at hte)]
              exact hte
            have hrec := ih (t.dropWhile isSpace) hlen hlast'
            rw [hu] at hrec
            have hd : isSpace d = false := by
              have := dropWhile_head_not hu
              simpa using this
            rw [hrec]
            simp [hd]
            rw [← hu, wordCount_dropWhile_ws]
        rw [hgoal]
        simp
      · have hc' : isSpace c = false := by simpa using hc
        rw [jsSplit_length_cons_nonws hc', wordCount_cons_nonws hc']
        simp only [List.headI_cons, hc', List.cons_ne_nil, if_neg, Bool.false_eq_true,
          if_false]
        have hsplit := List.takeWhile_append_dropWhile (p := fun d => !isSpace d) (l := t)
        have hwnon : ∀ d ∈ t.takeWhile (fun d => !isSpace d), isSpace d = false := by
          intro d hd
          have := List.mem_takeWhile_imp hd
          simpa using this
        have hLHS : (jsSplit t).length =
            (jsSplit (t.dropWhile (fun d => !isSpace d))).length := by
          conv_lhs => rw [← hsplit]
          exact jsSplit_length_prepend_nonws hwnon _
        rw [hLHS]
        cases hu : t.dropWhile (fun d => !isSpace d) with
        | nil =>
          rw [jsSplit_nil, wordCount_nil]
          simp
        | cons d u' =>
          have hd : isSpace d = true := by
            have := dropWhile_head_not hu
            simpa using this
          have hlen : (t.dropWhile (fun d => !isSpace d)).length ≤ n := by
            have := hlenDW (fun d => !isSpace d) t
            simp only [List.length_cons] at hv
            omega
          have hlast' : ∀ e, (t.dropWhile (fun d => !isSpace d)).getLast? = some e →
              isSpace e = false := by
            intro e he
            have hsfx : t.dropWhile (fun d => !isSpace d) <:+ t :=
              List.dropWhile_suffix _
            obtain ⟨pre, hpre⟩ := hsfx
            have hte : t.getLast? = some e := by
              rw [← hpre, getLast?_append_ne pre (by rw [hu]; simp)]
              exact he
            refine hlast e ?_
            rw [← List.singleton_append,
              getLast?_append_ne [c] (by intro hne; rw [hne] at hte; simp at hte)]
            exact hte
          have hrec := ih (t.dropWhile (fun d => !isSpace d)) hlen hlast'
          rw [hu] at hrec
          rw [hrec]
          simp [hd]
          omega

/-- Word-count agreement: on any input with at least one non-whitespace
character, the `words` field computed by trim-and-split equals the
whitespace-delimited word count. -/
theorem calculateReadingTime_words {s : List Char}
    (h : ∃ c ∈ s, isSpace c = false) :
    (calculateReadingTime s).words = wordCount s := by
  have hs1 : s.takeWhile isSpace ++ s.dropWhile isSpace = s :=
    List.takeWhile_append_dropWhile isSpace s
  have hy : (s.dropWhile isSpace).reverse.takeWhile isSpace ++
      (s.dropWhile isSpace).reverse.dropWhile isSpace = (s.dropWhile isSpace).reverse :=
    List.takeWhile_append_dropWhile isSpace (s.dropWhile isSpace).reverse
  have htrim : jsTrim s = ((s.dropWhile isSpace).reverse.dropWhile isSpace).reverse := rfl
  have hF1 : s.dropWhile isSpace =
      jsTrim s ++ ((s.dropWhile isSpace).reverse.takeWhile isSpace).reverse := by
    rw [htrim, ← List.reverse_append, hy, List.reverse_reverse]
  have hF2 : ∀ c ∈ ((s.dropWhile isSpace).reverse.takeWhile isSpace).reverse,
      isSpace c = true := by
    intro c hc
    rw [List.mem_reverse] at hc
    exact List.mem_takeWhile_imp hc
  have hF3 : jsTrim s ≠ [] := by
    intro h0
    obtain ⟨c, hcs, hcns⟩ := h
    rw [← hs1] at hcs
    rcases List.mem_append.mp hcs with h1 | h2
    · rw [List.mem_takeWhile_imp h1] at hcns
      cases hcns
    · rw [hF1, h0, List.nil_append] at h2
      rw [hF2 c h2] at hcns
      cases hcns
  have hF4 : isSpace (jsTrim s).headI = false := by
    cases hjT : jsTrim s with
    | nil => exact absurd hjT hF3
    | cons d r =>
      rw [List.headI_cons]
      cases hd1 : s.dropWhile isSpace with
      | nil =>
        exfalso
        rw [hd1] at hF1
        rw [hjT] at hF1
        simp at hF1
      | cons e r2 =>
        have hne : isSpace e = false := dropWhile_head_not hd1
        have : e = d := by
          have := hF1
          rw [hd1, hjT] at this
          simp only [List.cons_append, List.cons.injEq] at this
          exact this.1
        rw [← this]
        exact hne
  have hF5 : ∀ e, (jsTrim s).getLast? = some e → isSpace e = false := by
    intro e he
    rw [htrim, List.getLast?_reverse] at he
    cases hd1 : (s.dropWhile isSpace).reverse.dropWhile isSpace with
    | nil =>
      rw [hd1] at he
      cases he
    | cons d r =>
      have hnd : isSpace d = false := dropWhile_head_not hd1
      rw [hd1] at he
      injection he with he
      rw [← he]
      exact hnd
  have hA := jsSplit_length_eq (jsTrim s).length (jsTrim s) (le_refl _) hF5
  rw [if_neg hF3, hF4] at hA
  simp only [Bool.false_eq_true, if_false, Nat.add_zero] at hA
  have hW1 : wordCount (s.dropWhile isSpace) = wordCount (jsTrim s) := by
    conv_lhs => rw [hF1]
    exact wordCount_append_ws hF2 (jsTrim s).length (jsTrim s) (le_refl _)
  have hW2 : wordCount (s.dropWhile isSpace) = wordCount s :=
    wordCount_dropWhile_ws s
  show (jsSplit (jsTrim s)).length = wordCount s
  rw [hA, ← hW1, hW2]

/-- Correctness of the executable prefix test. -/
theorem litPre_iff {l s : List Char} : litPre l s = true ↔ l <+: s := by
  induction l generalizing s with
  | nil => simp [litPre]
  | cons a l ih =>
    cases s with
    | nil => simp [litPre]
    | cons b t => simp [litPre, List.cons_prefix_cons, ih]

/-- Occurrence in a cons, as an equivalence. -/
theorem infix_cons_iff {p : List Char} {c : Char} {l : List Char} :
    p <:+: c :: l ↔ p <+: c :: l ∨ p <:+: l := by
  constructor
  · exact infix_cons_elim
  · rintro (⟨t, ht⟩ | ⟨u, v, huv⟩)
    · exact ⟨[], t, by rw [List.nil_append, ht]⟩
    · exact ⟨c :: u, v, by rw [← huv]; rfl⟩

/-- Correctness of the executable substring test. -/
theorem hasSub_iff {pat s : List Char} : hasSub pat s = true ↔ pat <:+: s := by
  induction s with
  | nil =>
    show litPre pat [] = true ↔ _
    rw [litPre_iff]
    constructor
    · intro h
      exact ⟨[], [], by simpa using (pfx_eq_take h).symm⟩
    · rintro ⟨u, v, huv⟩
      simp only [List.append_eq_nil] at huv
      rw [huv.1.2]
  | cons c t ih =>
    show (litPre pat (c :: t) || hasSub pat t) = true ↔ _
    rw [Bool.or_eq_true, litPre_iff, ih, infix_cons_iff]

/-- Absence form of the executable substring test. -/
theorem hasSub_false_iff {pat s : List Char} : hasSub pat s = false ↔ ¬ pat <:+: s := by
  rw [← hasSub_iff]
  simp

/-- The case-insensitive substring test refuted at every offset. -/
theorem hasCI_false {pat s : List Char} (h : hasCI pat s = false) :
    ∀ i, ciPre pat (s.drop i) = false := by
  induction s with
  | nil =>
    intro i
    rw [List.drop_nil]
    exact h
  | cons c t ih =>
    have h' : ciPre pat (c :: t) = false ∧ hasCI pat t = false := by
      have hor : (ciPre pat (c :: t) || hasCI pat t) = false := h
      simpa using hor
    intro i
    cases i with
    | zero => exact h'.1
    | succ j =>
      rw [List.drop_succ_cons]
      exact ih h'.2 j

/-- Agreement of the fuelled and the recursive replacement scans. -/
theorem replaceAllCF_eq (m : List Char → Option Nat) (r : List Char) :
    ∀ (fuel : Nat) (s : List Char), s.length ≤ fuel →
      replaceAllCF m r fuel s = replaceAllC m r s := by
  intro fuel
  induction fuel with
  | zero =>
    intro s hs
    have : s = [] := by cases s <;> simp_all
    subst this
    rw [replaceAllC_nil]
    rfl
  | succ fuel ih =>
    intro s hs
    match s with
    | [] =>
      rw [replaceAllC_nil]
      rfl
    | c :: t =>
      cases hm : m (c :: t) with
      | some n =>
        rw [replaceAllC_fire m r hm]
        have hstep : replaceAllCF m r (fuel + 1) (c :: t) =
            r ++ replaceAllCF m r fuel (t.drop (n - 1)) := by
          rw [replaceAllCF, hm]
        rw [hstep, ih (t.drop (n - 1)) (by simp only [List.length_drop]; simp at hs; omega)]
      | none =>
        rw [replaceAllC_skip m r hm]
        have hstep : replaceAllCF m r (fuel + 1) (c :: t) =
            c :: replaceAllCF m r fuel t := by
          rw [replaceAllCF, hm]
        rw [hstep, ih t (by simp at hs; omega)]

/-- Self-fuelled form of the replacement scan. -/
theorem replaceAllCF_self (m : List Char → Option Nat) (r s : List Char) :
    replaceAllCF m r s.length s = replaceAllC m r s :=
  replaceAllCF_eq m r s.length s (le_refl _)

/-- Agreement of the fuelled and the recursive patch scans. -/
theorem patchGoF_eq (s : List Char) :
    ∀ (fuel : Nat) (r : List Char) (i : Nat), r.length ≤ fuel →
      patchGoF s fuel r i = patchGo s r i := by
  intro fuel
  induction fuel with
  | zero =>
    intro r i hr
    have : r = [] := by cases r <;> simp_all
    subst this
    rw [patchGo_nil]
    rfl
  | succ fuel ih =>
    intro r i hr
    match r with
    | [] =>
      rw [patchGo_nil]
      rfl
    | c :: t =>
      cases hm : mDB (c :: t) with
      | some n =>
        rw [patchGo_fire hm]
        have hstep : patchGoF s (fuel + 1) (c :: t) i =
            (if liLookback s i then liItemRepl else (c :: t).take n) ++
              patchGoF s fuel (t.drop (n - 1)) (i + n) := by
          rw [patchGoF, hm]
        rw [hstep, ih (t.drop (n - 1)) (i + n)
          (by simp only [List.length_drop]; simp at hr; omega)]
      | none =>
        rw [patchGo_skip hm]
        have hstep : patchGoF s (fuel + 1) (c :: t) i =
            c :: patchGoF s fuel t (i + 1) := by
          rw [patchGoF, hm]
        rw [hstep, ih t (i + 1) (by simp at hr; omega)]

/-- Self-fuelled form of the list-display patcher. -/
theorem patchListDisplayF_eq (s : List Char) :
    patchListDisplayF s = patchListDisplay s :=
  patchGoF_eq s s.length s 0 (le_refl _)

/-- Agreement of the fuelled and the recursive splits. -/
theorem jsSplitF_eq :
    ∀ (fuel : Nat) (s : List Char), s.length ≤ fuel → jsSplitF fuel s = jsSplit s := by
  intro fuel
  induction fuel with
  | zero =>
    intro s hs
    have : s = [] := by cases s <;> simp_all
    subst this
    rw [jsSplit_nil]
    rfl
  | succ fuel ih =>
    intro s hs
    match s with
    | [] =>
      rw [jsSplit_nil]
      rfl
    | c :: t =>
      by_cases hc : isSpace c = true
      · rw [jsSplit_cons_ws hc]
        show (if isSpace c then _ else _) = _
        rw [if_pos hc]
        have hdw : (t.dropWhile isSpace).length ≤ fuel := by
          have h1 : ∀ (l : List Char), (l.dropWhile isSpace).length ≤ l.length := by
            intro l
            induction l with
            | nil => simp
            | cons y l ihl =>
              rw [List.dropWhile_cons]
              split
              · simp only [List.length_cons]
                omega
              · simp
          have := h1 t
          simp at hs
          omega
        rw [ih _ hdw]
      · have hc' : isSpace c = false := by simpa using hc
        rw [jsSplit]
        show (if isSpace c then _ else _) = _
        rw [if_neg hc, if_neg hc, ih t (by simp at hs; omega)]

/-- Agreement of the fuelled and the recursive word counts. -/
theorem wordCountF_eq :
    ∀ (fuel : Nat) (s : List Char), s.length ≤ fuel → wordCountF fuel s = wordCount s := by
  intro fuel
  induction fuel with
  | zero =>
    intro s hs
    have : s = [] := by cases s <;> simp_all
    subst this
    rw [wordCount_nil]
    rfl
  | succ fuel ih =>
    intro s hs
    match s with
    | [] =>
      rw [wordCount_nil]
      rfl
    | c :: t =>
      by_cases hc : isSpace c = true
      · rw [wordCount_cons_ws hc]
        show (if isSpace c then _ else _) = _
        rw [if_pos hc, ih t (by simp at hs; omega)]
      · have hc' : isSpace c = false := by simpa using hc
        rw [wordCount_cons_nonws hc']
        show (if isSpace c then _ else _) = _
        rw [if_neg hc]
        have hdw : (t.dropWhile (fun d => !isSpace d)).length ≤ fuel := by
          have h1 : ∀ (l : List Char),
              (l.dropWhile (fun d => !isSpace d)).length ≤ l.length := by
            intro l
            induction l with
            | nil => simp
            | cons y l ihl =>
              rw [List.dropWhile_cons]
              split
              · simp only [List.length_cons]
                omega
              · simp
          have := h1 t
          simp at hs
          omega
        rw [ih _ hdw]

/-- Agreement of the fuelled and the recursive substitution folds. -/
theorem substVarsF_eq (table : List (List Char × List Char)) :
    ∀ css, substVarsF table css = substVars table css := by
  induction table with
  | nil => intro css; rfl
  | cons p t ih =>
    intro css
    show substVarsF t (replaceAllCF (mVarSub p.1) p.2 css.length css) =
      substVars t (replaceAllC (mVarSub p.1) p.2 css)
    rw [replaceAllCF_self, ih]

/-- Agreement of the fuelled and the recursive pre-sweep pipelines. -/
theorem preSweepF_eq (css : List Char) : preSweepF css = preSweep css := by
  unfold preSweepF preSweep removeRootBlocks
  simp only [substVarsF_eq, replaceAllCF_self, patchListDisplayF_eq]

/-- Agreement of the fuelled and the recursive resolver pipelines. -/
theorem processCSSF_eq (css : List Char) : processCSSF css = processCSS css := by
  unfold processCSSF processCSS
  rw [preSweepF_eq, replaceAllCF_self]

/-- Agreement of the fuelled and the recursive reading-time computations. -/
theorem calculateReadingTimeF_eq (text : List Char) :
    calculateReadingTimeF text = calculateReadingTime text := by
  unfold calculateReadingTimeF calculateReadingTime
  rw [jsSplitF_eq (jsTrim text).length (jsTrim text) (le_refl _)]

/-- Agreement of the fuelled and the recursive processed-stylesheet stages. -/
theorem processedCSSOfF_eq (ext : Externals) (themeId : Option (List Char))
    (options : RenderOptions) :
    processedCSSOfF ext themeId options = processedCSSOf ext themeId options := by
  unfold processedCSSOfF processedCSSOf
  cases options.codeTheme <;> rw [processCSSF_eq]

/-- Erasing a key removes its binding. -/
theorem alookup_aerase_self {β : Type} (l : List (List Char × β)) (k : List Char) :
    alookup (aerase l k) k = none := by
  induction l with
  | nil => rfl
  | cons p t ih =>
    show alookup (List.filter _ (p :: t)) k = none
    rw [List.filter_cons]
    by_cases hp : p.1 = k
    · rw [if_neg (by simp [hp])]
      exact ih
    · rw [if_pos (by simp [hp])]
      show alookup ((p.1, p.2) :: aerase t k) k = none
      unfold alookup
      rw [if_neg hp]
      exact ih

/-- Erasing a key leaves every other binding unchanged. -/
theorem alookup_aerase_ne {β : Type} (l : List (List Char × β)) (k j : List Char)
    (h : j ≠ k) : alookup (aerase l k) j = alookup l j := by
  induction l with
  | nil => rfl
  | cons p t ih =>
    obtain ⟨a, v⟩ := p
    show alookup (List.filter _ ((a, v) :: t)) j = _
    rw [List.filter_cons]
    by_cases hp : a = k
    · rw [if_neg (by simp [hp])]
      have hRHS : alookup ((a, v) :: t) j = alookup t j := by
        show (if a = j then some v else alookup t j) = alookup t j
        rw [if_neg (by rw [hp]; exact fun he => h he.symm)]
      rw [hRHS]
      exact ih
    · rw [if_pos (by simp [hp])]
      show alookup ((a, v) :: aerase t k) j = alookup ((a, v) :: t) j
      unfold alookup
      by_cases hj : a = j
      · rw [if_pos hj, if_pos hj]
      · rw [if_neg hj, if_neg hj]
        exact ih

/-- C9: the spec and the code's own comment declare `GET /api/health`
unauthenticated, but `app.use('/api', authMiddleware)` is registered before
the health route, so a request without an `X-API-Key` header is rejected
with the 401 missing-key response for every configured key set; the other
half of the claim (other `/api` routes reject missing keys, and an empty
key set accepts any key — here shown on the health route) does hold. -/
theorem C9_health_auth_ordering :
    (∀ validKeys : List (List Char),
      app validKeys
        { method := ("GET".toList), path := ("/api/health".toList), apiKey := none } =
        ApiResponse.unauthorized
          (("Missing API key. Please provide X-API-Key header.").toList)) ∧
    (∀ validKeys : List (List Char),
      app validKeys
        { method := ("POST".toList), path := ("/api/render".toList), apiKey := none } =
        ApiResponse.unauthorized
          (("Missing API key. Please provide X-API-Key header.").toList)) ∧
    (∀ k : List Char,
      app []
        { method := ("GET".toList), path := ("/api/health".toList), apiKey := some k } =
        ApiResponse.handled (("health").toList)) := by
  refine ⟨fun validKeys => rfl, fun validKeys => rfl, fun k => rfl⟩

/-- C10: deleting an unknown theme id returns false and leaves the store
untouched; deleting a present id returns true, removes exactly that id's
metadata entry and CSS file, and preserves every other binding. -/
theorem C10_deleteTheme_spec :
    (∀ (st : ThemeStoreState) (id : List Char),
      alookup st.metadata id = none → deleteTheme st id = (false, st)) ∧
    (∀ (st : ThemeStoreState) (id : List Char) (m : ThemeMetadata),
      alookup st.metadata id = some m →
        (deleteTheme st id).1 = true ∧
        alookup (deleteTheme st id).2.metadata id = none ∧
        alookup (deleteTheme st id).2.cssFiles id = none ∧
        (∀ j, j ≠ id →
          alookup (deleteTheme st id).2.metadata j = alookup st.metadata j ∧
          alookup (deleteTheme st id).2.cssFiles j = alookup st.cssFiles j)) := by
  constructor
  · intro st id h
    unfold deleteTheme
    rw [h]
  · intro st id m h
    unfold deleteTheme
    rw [h]
    exact ⟨rfl, alookup_aerase_self st.metadata id, alookup_aerase_self st.cssFiles id,
      fun j hj => ⟨alookup_aerase_ne st.metadata id j hj,
        alookup_aerase_ne st.cssFiles id j hj⟩⟩

/-- Closed instance of C10's theorem at a concrete one-theme store. -/
theorem C10_deleteTheme_witness :
    (alookup (⟨[(("a").toList, ⟨("a").toList, ("n").toList, ("c").toList, ("u").toList⟩)],
        [(("a").toList, ("p").toList)]⟩ : ThemeStoreState).metadata (("b").toList) = none) ∧
    deleteTheme (⟨[(("a").toList, ⟨("a").toList, ("n").toList, ("c").toList, ("u").toList⟩)],
        [(("a").toList, ("p").toList)]⟩ : ThemeStoreState) (("b").toList) =
      (false, ⟨[(("a").toList, ⟨("a").toList, ("n").toList, ("c").toList, ("u").toList⟩)],
        [(("a").toList, ("p").toList)]⟩) := by
  refine ⟨by decide, C10_deleteTheme_spec.1 _ _ (by decide)⟩

/-- C8: a theme id that the store does not know produces exactly the render
result of omitting the theme id — both fall back to the default stylesheet. -/
theorem C8_unknown_theme (ext : Externals) (markdown : List Char) (id : List Char)
    (format : RFormat) (options : RenderOptions) (h : ext.store id = none) :
    render ext markdown (some id) format options =
      render ext markdown none format options := by
  have hth : themeCSSOf ext (some id) = themeCSSOf ext none := by
    show (if id = [] then DEFAULT_THEME_CSS
      else
        match ext.store id with
        | some css => css
        | none => DEFAULT_THEME_CSS) = DEFAULT_THEME_CSS
    by_cases hid : id = []
    · rw [if_pos hid]
    · rw [if_neg hid, h]
  unfold render processedCSSOf combinedCSSOf
  rw [hth]

/-- Closed instance of C8's theorem at a concrete store with no themes. -/
theorem C8_unknown_theme_witness :
    (Externals.mk idParse idSanitize okJuice noStore).store (("missing").toList) = none ∧
    render (Externals.mk idParse idSanitize okJuice noStore) (("# hi").toList)
        (some (("missing").toList)) RFormat.html emptyOptions =
      render (Externals.mk idParse idSanitize okJuice noStore) (("# hi").toList)
        none RFormat.html emptyOptions :=
  ⟨rfl, C8_unknown_theme _ _ _ _ _ rfl⟩

/-- C3: when the inlining transform raises, the wechat render embeds the
whole processed stylesheet in a style tag prepended to the fragment, the
stylesheet text is contained in the returned HTML, and the render entry
point still returns a normal result. -/
theorem C3_inliner_fallback (ext : Externals) (markdown : List Char)
    (themeId : Option (List Char)) (options : RenderOptions) (msg : List Char)
    (hj : ext.juiceFn (docWrap (wrappedHtmlOf ext markdown options)
        (processedCSSOf ext themeId options)) = Except.error msg) :
    (render ext markdown themeId RFormat.wechat options).html =
      ("<style>".toList) ++ processedCSSOf ext themeId options ++
        (("</style>\n").toList) ++ wrappedHtmlOf ext markdown options ∧
    processedCSSOf ext themeId options <:+:
      (render ext markdown themeId RFormat.wechat options).html ∧
    (render ext markdown themeId RFormat.wechat options).css = none ∧
    (render ext markdown themeId RFormat.wechat options).readingTime =
      calculateReadingTime markdown := by
  have hhtml : (render ext markdown themeId RFormat.wechat options).html =
      ("<style>".toList) ++ processedCSSOf ext themeId options ++
        (("</style>\n").toList) ++ wrappedHtmlOf ext markdown options := by
    show inlineCSS ext.juiceFn (wrappedHtmlOf ext markdown options)
      (processedCSSOf ext themeId options) = _
    unfold inlineCSS
    rw [hj]
  refine ⟨hhtml, ?_, rfl, rfl⟩
  rw [hhtml]
  exact ⟨("<style>".toList),
    (("</style>\n").toList) ++ wrappedHtmlOf ext markdown options,
    by simp [List.append_assoc]⟩

/-- Closed instance of C3's theorem with an always-failing inliner. -/
theorem C3_inliner_fallback_witness :
    extErr.juiceFn (docWrap (wrappedHtmlOf extErr (("# hi").toList) emptyOptions)
        (processedCSSOf extErr none emptyOptions)) = Except.error (("boom").toList) ∧
    ((render extErr (("# hi").toList) none RFormat.wechat emptyOptions).html =
      ("<style>".toList) ++ processedCSSOf extErr none emptyOptions ++
        (("</style>\n").toList) ++ wrappedHtmlOf extErr (("# hi").toList) emptyOptions ∧
    processedCSSOf extErr none emptyOptions <:+:
      (render extErr (("# hi").toList) none RFormat.wechat emptyOptions).html ∧
    (render extErr (("# hi").toList) none RFormat.wechat emptyOptions).css = none ∧
    (render extErr (("# hi").toList) none RFormat.wechat emptyOptions).readingTime =
      calculateReadingTime (("# hi").toList)) :=
  ⟨rfl, C3_inliner_fallback extErr (("# hi").toList) none emptyOptions (("boom").toList) rfl⟩

/-- C7 counterexample: the markdown `"# Hello\n**World**"` has three
whitespace-delimited tokens (`#`, `Hello`, `**World**`), so the code yields
`words = 3`, not the claimed 2; and on the empty input the code yields
`words = 1` while the whitespace-delimited word count is 0. -/
theorem C7_readingTime_counterexample :
    (calculateReadingTime (("# Hello\n**World**").toList)).words ≠ 2 ∧
    (calculateReadingTime ([] : List Char)).words ≠ wordCount ([] : List Char) := by
  constructor
  · rw [← calculateReadingTimeF_eq]
    decide
  · rw [← calculateReadingTimeF_eq, wordCount_nil]
    decide

/-- C7 amended: the render result's reading time is computed from the input
markdown; `chars` is the exact character count and `minutes` the ceiling of
`words / 200`; `words` equals the whitespace-delimited word count whenever
the input has at least one non-whitespace character (empty and
all-whitespace inputs yield `words = 1`); the example `"# Hello\n**World**"`
yields 17 characters, 3 words and 1 minute. -/
theorem C7_readingTime_amended :
    (∀ (ext : Externals) (markdown : List Char) (themeId : Option (List Char))
      (format : RFormat) (options : RenderOptions),
      (render ext markdown themeId format options).readingTime =
        calculateReadingTime markdown) ∧
    (∀ s : List Char, (calculateReadingTime s).chars = s.length ∧
      (calculateReadingTime s).minutes = ((calculateReadingTime s).words + 199) / 200) ∧
    (∀ s : List Char, (∃ c ∈ s, isSpace c = false) →
      (calculateReadingTime s).words = wordCount s) ∧
    (calculateReadingTime (("# Hello\n**World**").toList)).chars = 17 ∧
    (calculateReadingTime (("# Hello\n**World**").toList)).words = 3 ∧
    (calculateReadingTime (("# Hello\n**World**").toList)).minutes = 1 := by
  refine ⟨?_, fun s => ⟨rfl, rfl⟩, fun s h => calculateReadingTime_words h, ?_, ?_, ?_⟩
  · intro ext markdown themeId format options
    cases format <;> rfl
  · rfl
  · rw [← calculateReadingTimeF_eq]
    decide
  · rw [← calculateReadingTimeF_eq]
    decide

/-- Closed instance of C7's amended theorem on a concrete input. -/
theorem C7_readingTime_witness :
    (∃ c ∈ (("# Hello\n**World**").toList), isSpace c = false) ∧
    (calculateReadingTime (("# Hello\n**World**").toList)).words =
      wordCount (("# Hello\n**World**").toList) :=
  ⟨by decide, C7_readingTime_amended.2.2.1 _ (by decide)⟩

/-- C1 counterexample: the resolver leaves the malformed reference text
`var(--` untouched (no stage's regex matches it), so its output contains
the literal substring `var(--`. -/
theorem C1_noleak_counterexample :
    processCSS (("var(--").toList) = ("var(--").toList ∧
    ("var(--".toList) <:+: processCSS (("var(--").toList) := by
  have he : processCSSF (("var(--").toList) = ("var(--").toList := by decide
  constructor
  · rw [← processCSSF_eq, he]
  · rw [← processCSSF_eq, he]

/-- C1 amended: whenever every occurrence of `var(--` in the text entering
the final sweep is a well-formed `var(--name)` reference (name a nonempty
run of word characters or hyphens, immediately closed by a parenthesis),
the resolver's output contains no occurrence of `var(--` at all: the sweep
replaces each such reference with `inherit`, and `inherit` cannot splice
with surrounding text into a new occurrence. -/
theorem C1_noleak_amended (css : List Char) (h : sweepSafe (preSweep css)) :
    ¬ ("var(--".toList) <:+: processCSS css := by
  unfold processCSS
  refine noInfix_replaceAllC_fires mSweep (by decide) ?_
  intro i hp
  rcases lt_or_ge i (preSweep css).length with hlt | hge
  · exact h i hlt hp
  · exfalso
    rw [List.drop_eq_nil_of_le hge] at hp
    simp at hp

/-- Closed instance of C1's amended theorem: a stylesheet with an unresolved
but well-formed `var(--x)` reference satisfies the sweep-safety hypothesis,
and the resolver's output is free of `var(--`. -/
theorem C1_noleak_witness :
    sweepSafe (preSweep (("a \x7b color: var(--x); \x7d").toList)) ∧
    ¬ ("var(--".toList) <:+: processCSS (("a \x7b color: var(--x); \x7d").toList) := by
  have hs : sweepSafe (preSweep (("a \x7b color: var(--x); \x7d").toList)) := by
    rw [← preSweepF_eq]
    decide
  exact ⟨hs, C1_noleak_amended _ hs⟩

/-- C4 counterexample: when the `:root` block defines
`--blockquote-background: red`, the per-variable substitution pass (which
runs before the hardcoded blockquote shim) replaces the reference with
`red`, so the output contains `red` and no `rgba(0,0,0,0.03)` at all —
the replacement is not independent of the defined value. -/
theorem C4_blockquote_counterexample :
    processCSS ((":root \x7b --blockquote-background: red; \x7d blockquote \x7b background: var(--blockquote-background); \x7d").toList) =
      ((" blockquote \x7b background: red; \x7d").toList) ∧
    ¬ ("rgba(0,0,0,0.03)".toList) <:+:
      processCSS ((":root \x7b --blockquote-background: red; \x7d blockquote \x7b background: var(--blockquote-background); \x7d").toList) := by
  have he : processCSSF ((":root \x7b --blockquote-background: red; \x7d blockquote \x7b background: var(--blockquote-background); \x7d").toList) =
      ((" blockquote \x7b background: red; \x7d").toList) := by decide
  constructor
  · rw [← processCSSF_eq]
    exact he
  · rw [← processCSSF_eq, he]
    exact hasSub_false_iff.mp (by decide)

/-- C4 amended: no `var(--blockquote-background)` reference ever survives to
the resolver's output (the blockquote shim replaces every occurrence still
present after substitution, and the later stages cannot re-create one);
when the variable is not defined in a `:root` block, the reference is
indeed replaced by the literal `rgba(0,0,0,0.03)`. -/
theorem C4_blockquote_amended :
    (∀ css : List Char,
      ¬ ("var(--blockquote-background)".toList) <:+: processCSS css) ∧
    processCSS (("blockquote \x7b background: var(--blockquote-background); \x7d").toList) =
      (("blockquote \x7b background: rgba(0,0,0,0.03); \x7d").toList) := by
  constructor
  · intro css
    have key : ∀ x : List Char,
        ¬ ("var(--blockquote-background)".toList) <:+:
          replaceAllC mSweep ("inherit".toList)
            (replaceAllC (mVarTol ("--background".toList)) ("0 0% 100%".toList)
              (replaceAllC (mVarTol ("--foreground".toList)) ("0 0% 3.9%".toList)
                (replaceAllC (mVarTol ("--blockquote-background".toList))
                  ("rgba(0,0,0,0.03)".toList) x))) := by
      intro x
      refine noInfix_replaceAllC_noNew mSweep (by decide) ?_
      refine noInfix_replaceAllC_noNew _ (by decide) ?_
      refine noInfix_replaceAllC_noNew _ (by decide) ?_
      refine noInfix_replaceAllC_fires _ (by decide) ?_
      intro i hp
      obtain ⟨w, hw⟩ := hp
      rw [← hw]
      rfl
    exact key _
  · rw [← processCSSF_eq]
    decide

/-- C5 counterexample: a `display: block` declaration textually inside an
`li \x7b ... \x7d` rule body escapes the patch when more than fifty
characters separate it from the rule opener, because the lookback window
of the replacer is capped at fifty characters; the claimed "if and only if
contained in an li body" contract fails in the only-if-seen-nearby
direction. -/
theorem C5_list_patch_counterexample :
    ("li \x7b".toList) <+:
      (("li \x7b color: aaaaaaaaaaaaaaaaaaaaaaaaaaaaaaaaaaaaaaaaaaaaaaaaaa; display: block; \x7d").toList) ∧
    dbText <:+:
      (("li \x7b color: aaaaaaaaaaaaaaaaaaaaaaaaaaaaaaaaaaaaaaaaaaaaaaaaaa; display: block; \x7d").toList) ∧
    patchListDisplay
      (("li \x7b color: aaaaaaaaaaaaaaaaaaaaaaaaaaaaaaaaaaaaaaaaaaaaaaaaaa; display: block; \x7d").toList) =
      (("li \x7b color: aaaaaaaaaaaaaaaaaaaaaaaaaaaaaaaaaaaaaaaaaaaaaaaaaa; display: block; \x7d").toList) := by
  refine ⟨by decide, hasSub_iff.mp (by decide), ?_⟩
  rw [← patchListDisplayF_eq]
  decide

/-- C5 amended: with a single canonical `display: block` occurrence, the
patcher rewrites it to `display: list-item` exactly when the
fifty-character window of the original text immediately before it still
shows an unclosed `li \x7b` opener, and copies the rest verbatim; the
spec's concrete example `li \x7b display: block; \x7d p \x7b display:
block; \x7d` does patch only the `li` rule. -/
theorem C5_list_patch_amended :
    (∀ (pre post : List Char),
      (∀ j, j < (pre ++ dbText ++ post).length → j ≠ pre.length →
        mDB ((pre ++ dbText ++ post).drop j) = none) →
      patchListDisplay (pre ++ dbText ++ post) =
        pre ++ (if liLookback (pre ++ dbText ++ post) pre.length
                then liItemRepl else dbText) ++ post) ∧
    processCSS (("li \x7b display: block; \x7d p \x7b display: block; \x7d").toList) =
      (("li \x7b display: list-item; \x7d p \x7b display: block; \x7d").toList) := by
  constructor
  · intro pre post hnone
    simp only [List.append_assoc] at hnone ⊢
    unfold patchListDisplay
    have hcopy1 : ∀ j, j < pre.length →
        mDB ((pre ++ (dbText ++ post)).drop (0 + j)) = none := by
      intro j hj
      rw [Nat.zero_add]
      refine hnone j ?_ (by omega)
      simp only [List.length_append]
      omega
    have hstep := patchGo_copy (i := 0) pre hcopy1 (by rw [List.drop_zero])
    rw [hstep, Nat.zero_add]
    congr 1
    have hm : mDB ('d' :: (("isplay: block".toList) ++ post)) = some 14 := rfl
    have hfire : patchGo (pre ++ (dbText ++ post)) (dbText ++ post) pre.length =
        (if liLookback (pre ++ (dbText ++ post)) pre.length then liItemRepl
         else ('d' :: (("isplay: block".toList) ++ post)).take 14) ++
          patchGo (pre ++ (dbText ++ post))
            ((("isplay: block".toList) ++ post).drop (14 - 1)) (pre.length + 14) :=
      patchGo_fire hm
    rw [hfire]
    have htake : ('d' :: (("isplay: block".toList) ++ post)).take 14 = dbText := by
      have hsplit : dbText ++ post = 'd' :: (("isplay: block".toList) ++ post) := rfl
      rw [← hsplit, show (14 : Nat) = dbText.length from rfl, List.take_left]
    have hdrop : (("isplay: block".toList) ++ post).drop (14 - 1) = post := by
      rw [show ((14 : Nat) - 1) = ("isplay: block".toList).length from rfl,
        List.drop_left]
    rw [htake, hdrop]
    congr 1
    have hSd : (pre ++ (dbText ++ post)).drop (pre.length + 14) = post := by
      have h1 : (pre ++ (dbText ++ post)).drop pre.length = dbText ++ post :=
        List.drop_left _ _
      have h2 : ((pre ++ (dbText ++ post)).drop pre.length).drop 14 =
          (pre ++ (dbText ++ post)).drop (pre.length + 14) := by
        rw [List.drop_drop]
      rw [← h2, h1, show (14 : Nat) = dbText.length from rfl, List.drop_left]
    have hcopy2 : ∀ j, j < post.length →
        mDB ((pre ++ (dbText ++ post)).drop ((pre.length + 14) + j)) = none := by
      intro j hj
      refine hnone _ ?_ (by omega)
      simp only [List.length_append]
      have h14 : dbText.length = 14 := rfl
      omega
    have hpost := patchGo_copy (i := pre.length + 14) post hcopy2
      (by rw [List.append_nil]; exact hSd.symm)
    have hnilapp : patchGo (pre ++ (dbText ++ post)) post (pre.length + 14) =
        patchGo (pre ++ (dbText ++ post)) (post ++ []) (pre.length + 14) := by
      rw [List.append_nil]
    rw [hnilapp, hpost, patchGo_nil, List.append_nil]
  · rw [← processCSSF_eq]
    decide

/-- Closed instance of C5's amended theorem: for `li \x7b display: block;
\x7d` the regex matches only at offset 5, the lookback window sees the
`li \x7b` opener, and the declaration is rewritten. -/
theorem C5_list_patch_witness :
    (∀ j, j < ((("li \x7b ".toList) ++ dbText ++ ("; \x7d".toList)).length) →
      j ≠ ("li \x7b ".toList).length →
      mDB ((("li \x7b ".toList) ++ dbText ++ ("; \x7d".toList)).drop j) = none) ∧
    patchListDisplay (("li \x7b ".toList) ++ dbText ++ ("; \x7d".toList)) =
      ("li \x7b ".toList) ++
        (if liLookback (("li \x7b ".toList) ++ dbText ++ ("; \x7d".toList))
            ("li \x7b ".toList).length
         then liItemRepl else dbText) ++ ("; \x7d".toList) := by
  have h : ∀ j, j < ((("li \x7b ".toList) ++ dbText ++ ("; \x7d".toList)).length) →
      j ≠ ("li \x7b ".toList).length →
      mDB ((("li \x7b ".toList) ++ dbText ++ ("; \x7d".toList)).drop j) = none := by
    decide
  exact ⟨h, C5_list_patch_amended.1 _ _ h⟩

/-- Transitivity of the prefix order. -/
theorem pfx_trans {a b c : List Char} (h1 : a <+: b) (h2 : b <+: c) : a <+: c := by
  obtain ⟨t1, rfl⟩ := h1
  obtain ⟨t2, rfl⟩ := h2
  exact ⟨t1 ++ t2, by rw [List.append_assoc]⟩

/-- An exact prefix is in particular a case-insensitive prefix. -/
theorem ciPre_of_pfx {l u : List Char} (h : l <+: u) : ciPre l u = true := by
  induction l generalizing u with
  | nil => rfl
  | cons a as ih =>
    obtain ⟨t, rfl⟩ := h
    show (ciChar a a && ciPre as (as ++ t)) = true
    rw [Bool.and_eq_true]
    exact ⟨by simp [ciChar], ih ⟨t, rfl⟩⟩

/-- A per-variable substitution match starts with the text `var`. -/
theorem mVarSub_var {name u : List Char} {n : Nat} (h : mVarSub name u = some n) :
    ciPre ("var".toList) u = true := by
  unfold mVarSub pSeq at h
  rcases Option.bind_eq_some.mp h with ⟨a, ha, _⟩
  unfold pLit at ha
  by_cases hp : litPre ("var(".toList) u = true
  · exact ciPre_of_pfx (pfx_trans (litPre_iff.mp (by decide)) (litPre_iff.mp hp))
  · rw [if_neg hp] at ha
    cases ha

/-- A whitespace-tolerant variable match starts with the text `var`. -/
theorem mVarTol_var {name u : List Char} {n : Nat} (h : mVarTol name u = some n) :
    ciPre ("var".toList) u = true := by
  unfold mVarTol pSeq at h
  rcases Option.bind_eq_some.mp h with ⟨a, ha, _⟩
  unfold pLitCI at ha
  by_cases hp : ciPre ("var".toList) u = true
  · exact hp
  · rw [if_neg hp] at ha
    cases ha

/-- A fallback-sweep match starts with the text `var`. -/
theorem mSweep_var {u : List Char} {n : Nat} (h : mSweep u = some n) :
    ciPre ("var".toList) u = true := by
  unfold mSweep at h
  by_cases hp : litPre ("var(--".toList) u = true
  · exact ciPre_of_pfx (pfx_trans (litPre_iff.mp (by decide)) (litPre_iff.mp hp))
  · rw [if_neg hp] at h
    cases h

/-- An `hsl(var(NAME))` match contains the text `var` at some offset. -/
theorem mHslVar_var {name u : List Char} {n : Nat} (h : mHslVar name u = some n) :
    ∃ k, ciPre ("var".toList) (u.drop k) = true := by
  unfold mHslVar pSeq at h
  rcases Option.bind_eq_some.mp h with ⟨a, ha, hm1⟩
  rcases Option.map_eq_some'.mp hm1 with ⟨b, hb, _⟩
  rcases Option.bind_eq_some.mp hb with ⟨c, hc, hm2⟩
  rcases Option.map_eq_some'.mp hm2 with ⟨d, hd, _⟩
  rcases Option.bind_eq_some.mp hd with ⟨e, he, hm3⟩
  rcases Option.map_eq_some'.mp hm3 with ⟨f, hf, _⟩
  rcases Option.bind_eq_some.mp hf with ⟨g, hg, hm4⟩
  rcases Option.map_eq_some'.mp hm4 with ⟨w, hw, _⟩
  rcases Option.bind_eq_some.mp hw with ⟨i0, hi0, _⟩
  unfold pLitCI at hi0
  by_cases hp : ciPre ("var".toList) ((((u.drop a).drop c).drop e).drop g) = true
  · simp only [List.drop_drop] at hp
    exact ⟨_, hp⟩
  · rw [if_neg hp] at hi0
    cases hi0

/-- C6 counterexample: a stylesheet with no `var()` references and no `:root`
block is nevertheless rewritten by the resolver — the list-display patch
stage changes its `display: block` declaration to `display: list-item` —
so "unchanged except for `:root` removal" fails. -/
theorem C6_idempotence_counterexample :
    hasCI ("var".toList) (("li \x7b display: block; \x7d").toList) = false ∧
    removeRootBlocks (("li \x7b display: block; \x7d").toList) =
      ("li \x7b display: block; \x7d").toList ∧
    processCSS (("li \x7b display: block; \x7d").toList) =
      ("li \x7b display: list-item; \x7d").toList := by
  refine ⟨by decide, ?_, ?_⟩
  · show replaceAllC mRoot [] (("li \x7b display: block; \x7d").toList) = _
    rw [← replaceAllCF_self]
    decide
  · rw [← processCSSF_eq]
    decide

/-- C6 amended: a stylesheet whose text (before and after `:root` removal)
never contains the letters `var`, whose `:root` block defines neither
`--md-font-family` nor `--md-font-size` (so no container rule is
synthesized), and in which no `display: block` declaration has an unclosed
`li \x7b` in its fifty-character lookback window, is returned by the
resolver unchanged except for the removal of its `:root` blocks. -/
theorem C6_no_var_resolution (css : List Char)
    (hvar : hasCI ("var".toList) css = false)
    (hff : tLookup (cssVariables css) ("--md-font-family".toList) = none)
    (hfs : tLookup (cssVariables css) ("--md-font-size".toList) = none)
    (hvarR : hasCI ("var".toList) (removeRootBlocks css) = false)
    (hdb : ∀ j, j < (removeRootBlocks css).length →
      (mDB ((removeRootBlocks css).drop j)).isSome = true →
      liLookback (removeRootBlocks css) j = false) :
    processCSS css = removeRootBlocks css := by
  have hvNone : ∀ (nm : List Char) (i : Nat), mVarSub nm (css.drop i) = none := by
    intro nm i
    cases hms : mVarSub nm (css.drop i) with
    | none => rfl
    | some n =>
      have hci := mVarSub_var hms
      rw [hasCI_false hvar i] at hci
      exact Bool.noConfusion hci
  have hsub : substVars (cssVariables css) css = css := by
    generalize cssVariables css = table
    induction table with
    | nil => rfl
    | cons p t ih =>
      show substVars t (replaceAllC (mVarSub p.1) p.2 css) = css
      rw [replaceAllC_id (mVarSub p.1) p.2 (hvNone p.1)]
      exact ih
  have hciR := hasCI_false hvarR
  have hR5 : ∀ i, mHslVar ("--foreground".toList)
      ((removeRootBlocks css).drop i) = none := by
    intro i
    cases hms : mHslVar ("--foreground".toList) ((removeRootBlocks css).drop i) with
    | none => rfl
    | some n =>
      obtain ⟨k, hk⟩ := mHslVar_var hms
      rw [List.drop_drop, hciR] at hk
      exact Bool.noConfusion hk
  have hR6 : ∀ i, mHslVar ("--background".toList)
      ((removeRootBlocks css).drop i) = none := by
    intro i
    cases hms : mHslVar ("--background".toList) ((removeRootBlocks css).drop i) with
    | none => rfl
    | some n =>
      obtain ⟨k, hk⟩ := mHslVar_var hms
      rw [List.drop_drop, hciR] at hk
      exact Bool.noConfusion hk
  have hR7 : ∀ i, mVarTol ("--blockquote-background".toList)
      ((removeRootBlocks css).drop i) = none := by
    intro i
    cases hms : mVarTol ("--blockquote-background".toList)
        ((removeRootBlocks css).drop i) with
    | none => rfl
    | some n =>
      have hci := mVarTol_var hms
      rw [hciR] at hci
      exact Bool.noConfusion hci
  have hR8 : ∀ i, mVarTol ("--foreground".toList)
      ((removeRootBlocks css).drop i) = none := by
    intro i
    cases hms : mVarTol ("--foreground".toList) ((removeRootBlocks css).drop i) with
    | none => rfl
    | some n =>
      have hci := mVarTol_var hms
      rw [hciR] at hci
      exact Bool.noConfusion hci
  have hR9 : ∀ i, mVarTol ("--background".toList)
      ((removeRootBlocks css).drop i) = none := by
    intro i
    cases hms : mVarTol ("--background".toList) ((removeRootBlocks css).drop i) with
    | none => rfl
    | some n =>
      have hci := mVarTol_var hms
      rw [hciR] at hci
      exact Bool.noConfusion hci
  have hRs : ∀ i, mSweep ((removeRootBlocks css).drop i) = none := by
    intro i
    cases hms : mSweep ((removeRootBlocks css).drop i) with
    | none => rfl
    | some n =>
      have hci := mSweep_var hms
      rw [hciR] at hci
      exact Bool.noConfusion hci
  have hdb' : ∀ j, (mDB ((removeRootBlocks css).drop j)).isSome = true →
      liLookback (removeRootBlocks css) j = false := by
    intro j hj
    rcases lt_or_ge j (removeRootBlocks css).length with hlt | hge
    · exact hdb j hlt hj
    · exfalso
      rw [List.drop_eq_nil_of_le hge] at hj
      exact absurd hj (by decide)
  have hpatch : patchListDisplay (removeRootBlocks css) = removeRootBlocks css :=
    patchGo_id hdb' (List.drop_zero _).symm
  have hcp : containerPrefix (cssVariables css) = [] := by
    simp only [containerPrefix]
    rw [hff, hfs]
    rfl
  have e1 : preSweep css =
      replaceAllC (mVarTol ("--background".toList)) ("0 0% 100%".toList)
        (replaceAllC (mVarTol ("--foreground".toList)) ("0 0% 3.9%".toList)
          (replaceAllC (mVarTol ("--blockquote-background".toList))
            ("rgba(0,0,0,0.03)".toList)
            (replaceAllC (mHslVar ("--background".toList)) ("hsl(0, 0%, 100%)".toList)
              (replaceAllC (mHslVar ("--foreground".toList)) ("hsl(0, 0%, 3.9%)".toList)
                (patchListDisplay
                  (removeRootBlocks
                    (containerPrefix (cssVariables css) ++
                      substVars (cssVariables css) css))))))) := rfl
  rw [hsub, hcp, List.nil_append, hpatch] at e1
  rw [replaceAllC_id _ _ hR5, replaceAllC_id _ _ hR6, replaceAllC_id _ _ hR7,
    replaceAllC_id _ _ hR8, replaceAllC_id _ _ hR9] at e1
  show replaceAllC mSweep ("inherit".toList) (preSweep css) = removeRootBlocks css
  rw [e1]
  exact replaceAllC_id _ _ hRs

/-- Closed instance of C6's amended theorem: a `var()`-free stylesheet with a
`:root` block that defines only `--a` comes back with exactly that block
removed and everything else untouched. -/
theorem C6_no_var_witness :
    (hasCI ("var".toList)
        (("h1 \x7b color: red; \x7d :root \x7b --a: 1; \x7d p \x7b margin: 0; \x7d").toList) = false ∧
      tLookup (cssVariables (("h1 \x7b color: red; \x7d :root \x7b --a: 1; \x7d p \x7b margin: 0; \x7d").toList))
        ("--md-font-family".toList) = none ∧
      tLookup (cssVariables (("h1 \x7b color: red; \x7d :root \x7b --a: 1; \x7d p \x7b margin: 0; \x7d").toList))
        ("--md-font-size".toList) = none ∧
      hasCI ("var".toList)
        (removeRootBlocks (("h1 \x7b color: red; \x7d :root \x7b --a: 1; \x7d p \x7b margin: 0; \x7d").toList)) = false ∧
      (∀ j, j < (removeRootBlocks (("h1 \x7b color: red; \x7d :root \x7b --a: 1; \x7d p \x7b margin: 0; \x7d").toList)).length →
        (mDB ((removeRootBlocks (("h1 \x7b color: red; \x7d :root \x7b --a: 1; \x7d p \x7b margin: 0; \x7d").toList)).drop j)).isSome = true →
        liLookback (removeRootBlocks (("h1 \x7b color: red; \x7d :root \x7b --a: 1; \x7d p \x7b margin: 0; \x7d").toList)) j = false)) ∧
    processCSS (("h1 \x7b color: red; \x7d :root \x7b --a: 1; \x7d p \x7b margin: 0; \x7d").toList) =
      removeRootBlocks (("h1 \x7b color: red; \x7d :root \x7b --a: 1; \x7d p \x7b margin: 0; \x7d").toList) := by
  have hrm : removeRootBlocks (("h1 \x7b color: red; \x7d :root \x7b --a: 1; \x7d p \x7b margin: 0; \x7d").toList) =
      (("h1 \x7b color: red; \x7d  p \x7b margin: 0; \x7d").toList) := by
    show replaceAllC mRoot [] _ = _
    rw [← replaceAllCF_self]
    decide
  have h1 : hasCI ("var".toList)
      (("h1 \x7b color: red; \x7d :root \x7b --a: 1; \x7d p \x7b margin: 0; \x7d").toList) = false := by
    decide
  have h2 : tLookup (cssVariables (("h1 \x7b color: red; \x7d :root \x7b --a: 1; \x7d p \x7b margin: 0; \x7d").toList))
      ("--md-font-family".toList) = none := by decide
  have h3 : tLookup (cssVariables (("h1 \x7b color: red; \x7d :root \x7b --a: 1; \x7d p \x7b margin: 0; \x7d").toList))
      ("--md-font-size".toList) = none := by decide
  have h4 : hasCI ("var".toList)
      (removeRootBlocks (("h1 \x7b color: red; \x7d :root \x7b --a: 1; \x7d p \x7b margin: 0; \x7d").toList)) = false := by
    rw [hrm]
    decide
  have h5 : ∀ j, j < (removeRootBlocks (("h1 \x7b color: red; \x7d :root \x7b --a: 1; \x7d p \x7b margin: 0; \x7d").toList)).length →
      (mDB ((removeRootBlocks (("h1 \x7b color: red; \x7d :root \x7b --a: 1; \x7d p \x7b margin: 0; \x7d").toList)).drop j)).isSome = true →
      liLookback (removeRootBlocks (("h1 \x7b color: red; \x7d :root \x7b --a: 1; \x7d p \x7b margin: 0; \x7d").toList)) j = false := by
    rw [hrm]
    decide
  exact ⟨⟨h1, h2, h3, h4, h5⟩, C6_no_var_resolution _ h1 h2 h3 h4 h5⟩

/-- Transitivity of the infix order. -/
theorem infix_trans {a b c : List Char} (h1 : a <:+: b) (h2 : b <:+: c) :
    a <:+: c := by
  obtain ⟨u1, v1, rfl⟩ := h1
  obtain ⟨u2, v2, rfl⟩ := h2
  exact ⟨u2 ++ u1, v1 ++ v2, by simp [List.append_assoc]⟩

/-- A prefix is an infix. -/
theorem pfx_within {a b : List Char} (h : a <+: b) : a <:+: b := by
  obtain ⟨t, rfl⟩ := h
  exact ⟨[], t, rfl⟩

/-- A suffix is an infix. -/
theorem sfx_within {a b : List Char} (h : a <:+ b) : a <:+: b := by
  obtain ⟨t, rfl⟩ := h
  exact ⟨t, [], by rw [List.append_nil]⟩

/-- `dropWhile` yields a suffix. -/
theorem dropWhile_sfx (p : Char → Bool) : ∀ l : List Char, l.dropWhile p <:+ l := by
  intro l
  induction l with
  | nil => exact ⟨[], rfl⟩
  | cons c t ih =>
    by_cases hc : p c = true
    · rw [List.dropWhile_cons, if_pos hc]
      obtain ⟨u, hu⟩ := ih
      exact ⟨c :: u, by rw [List.cons_append, hu]⟩
    · rw [List.dropWhile_cons, if_neg hc]

/-- Reversal turns suffixes into prefixes. -/
theorem sfx_reverse_pfx {a b : List Char} (h : a <:+ b) :
    a.reverse <+: b.reverse := by
  obtain ⟨t, rfl⟩ := h
  rw [List.reverse_append]
  exact ⟨t.reverse, rfl⟩

/-- JavaScript trim returns a contiguous segment of its input. -/
theorem jsTrim_within (s : List Char) : jsTrim s <:+: s := by
  unfold jsTrim
  have h1 : s.dropWhile isSpace <:+ s := dropWhile_sfx isSpace s
  have h2 : (s.dropWhile isSpace).reverse.dropWhile isSpace <:+
      (s.dropWhile isSpace).reverse := dropWhile_sfx isSpace _
  have h3 := sfx_reverse_pfx h2
  rw [List.reverse_reverse] at h3
  exact infix_trans (pfx_within h3) (sfx_within h1)

/-- The inliner on a successful transform returns the trimmed body capture. -/
theorem inlineCSS_ok {jf : List Char → Except (List Char) (List Char)}
    {html css res inner : List Char}
    (hj : jf (docWrap html css) = Except.ok res)
    (hb : bodyExtract res = some inner) :
    inlineCSS jf html css = jsTrim inner := by
  unfold inlineCSS
  rw [hj]
  show (match bodyExtract res with
    | some i => jsTrim i
    | none => html) = jsTrim inner
  rw [hb]

/-- C2: format selector exclusivity of `render`. With `html-plain` the result
carries the processed stylesheet (always non-empty) in `css` and a
style-tag-free fragment in `html`; with `html` the result has no `css` and
exactly one `<style>` block (one at the very front, none after it); with
`wechat` — the default format — the result has no `css` and, when the
inlining transform succeeds and yields a body capture free of style tags,
a style-tag-free `html`. The hypotheses confine the external collaborators:
the sanitized fragment and the processed stylesheet contain no `<style`,
and the successful inliner run is described by its output. -/
theorem C2_format_selector (ext : Externals) (markdown : List Char)
    (themeId : Option (List Char)) (options : RenderOptions)
    (hsan : ¬ ("<style".toList) <:+: ext.sanitize (ext.parse options markdown))
    (hpcss : ¬ ("<style".toList) <:+: processedCSSOf ext themeId options)
    {res inner : List Char}
    (hjok : ext.juiceFn (docWrap (wrappedHtmlOf ext markdown options)
      (processedCSSOf ext themeId options)) = Except.ok res)
    (hbody : bodyExtract res = some inner)
    (hinner : ¬ ("<style".toList) <:+: inner) :
    ((render ext markdown themeId RFormat.htmlPlain options).css =
        some (processedCSSOf ext themeId options) ∧
      processedCSSOf ext themeId options ≠ [] ∧
      ¬ ("<style".toList) <:+:
        (render ext markdown themeId RFormat.htmlPlain options).html) ∧
    ((render ext markdown themeId RFormat.html options).css = none ∧
      ("<style".toList) <+: (render ext markdown themeId RFormat.html options).html ∧
      ¬ ("<style".toList) <:+:
        ((render ext markdown themeId RFormat.html options).html.drop 1)) ∧
    ((render ext markdown themeId RFormat.wechat options).css = none ∧
      ¬ ("<style".toList) <:+:
        (render ext markdown themeId RFormat.wechat options).html ∧
      renderDefaultFormat ext markdown themeId options =
        render ext markdown themeId RFormat.wechat options) := by
  have hbA : ∀ k, k < ("<style".toList).length → 0 < k →
      ¬ (("<style".toList).take k <:+ ("<section class=\"md-container\">".toList)) := by
    decide
  have hbB : ∀ k, k < ("<style".toList).length → 0 < k →
      ¬ (("<style".toList).drop k <+: ("</section>".toList)) := by decide
  have hT1 : ∀ k, k < ("<style".toList).length → 0 < k →
      ¬ (("<style".toList).take k <:+ ("style>".toList)) := by decide
  have hT2 : ∀ k, k < ("<style".toList).length → 0 < k →
      ¬ (("<style".toList).take k <:+ ("</style>\n".toList)) := by decide
  have hD2 : ∀ k, k < ("<style".toList).length → 0 < k →
      ¬ (("<style".toList).drop k <+: ("</style>\n".toList)) := by decide
  have hh0 : ¬ ("<style".toList) <:+: wrappedHtmlOf ext markdown options := by
    show ¬ ("<style".toList) <:+:
      (("<section class=\"md-container\">".toList) ++
        ext.sanitize (ext.parse options markdown) ++ ("</section>".toList))
    refine noInfix_append ?_ ?_ ?_
    · refine noInfix_append ?_ hsan ?_
      · exact hasSub_false_iff.mp (by decide)
      · intro k hk0 hklen hand
        exact hbA k hklen hk0 hand.1
    · exact hasSub_false_iff.mp (by decide)
    · intro k hk0 hklen hand
      exact hbB k hklen hk0 hand.2
  have hne : processedCSSOf ext themeId options ≠ [] := by
    unfold processedCSSOf
    cases hct : options.codeTheme with
    | none =>
      intro hcontra
      have hlen := congrArg List.length hcontra
      simp at hlen
    | some ct =>
      intro hcontra
      have hlen := congrArg List.length hcontra
      simp at hlen
  have hdrop2 : (render ext markdown themeId RFormat.html options).html.drop 1 =
      ("style>".toList) ++ (processedCSSOf ext themeId options ++
        (("</style>\n".toList) ++ wrappedHtmlOf ext markdown options)) := by
    show ((("<style>".toList) ++ processedCSSOf ext themeId options ++
      ("</style>\n".toList) ++ wrappedHtmlOf ext markdown options)).drop 1 = _
    rw [List.append_assoc, List.append_assoc,
      List.drop_append_of_le_length (by decide)]
    rfl
  have hno2 : ¬ ("<style".toList) <:+:
      (render ext markdown themeId RFormat.html options).html.drop 1 := by
    rw [hdrop2]
    refine noInfix_append ?_ ?_ ?_
    · exact hasSub_false_iff.mp (by decide)
    · refine noInfix_append hpcss ?_ ?_
      · refine noInfix_append ?_ hh0 ?_
        · exact hasSub_false_iff.mp (by decide)
        · intro k hk0 hklen hand
          exact hT2 k hklen hk0 hand.1
      · intro k hk0 hklen hand
        have hlen : (("<style".toList).drop k).length ≤
            ("</style>\n".toList).length := by
          rw [List.length_drop]
          have h6 : ("<style".toList).length = 6 := rfl
          have h9 : ("</style>\n".toList).length = 9 := rfl
          omega
        exact hD2 k hklen hk0 ((pfx_append_short hlen).mp hand.2)
    · intro k hk0 hklen hand
      exact hT1 k hklen hk0 hand.1
  have hw : (render ext markdown themeId RFormat.wechat options).html =
      jsTrim inner := by
    show inlineCSS ext.juiceFn (wrappedHtmlOf ext markdown options)
      (processedCSSOf ext themeId options) = jsTrim inner
    exact inlineCSS_ok hjok hbody
  have hno3 : ¬ ("<style".toList) <:+:
      (render ext markdown themeId RFormat.wechat options).html := by
    rw [hw]
    intro hcon
    exact hinner (infix_trans hcon (jsTrim_within inner))
  refine ⟨⟨rfl, hne, hh0⟩, ⟨rfl, ?_, hno2⟩, ⟨rfl, hno3, rfl⟩⟩
  exact litPre_iff.mp rfl

set_option maxRecDepth 100000 in
/-- Closed instance of C2's theorem: identity parser and sanitizer over
`# hi`, the one-theme store, and an inliner returning a fixed body. -/
theorem C2_format_selector_witness :
    (¬ ("<style".toList) <:+: extOk.sanitize (extOk.parse emptyOptions (("# hi").toList))) ∧
    (¬ ("<style".toList) <:+: processedCSSOf extOk (some (("t").toList)) emptyOptions) ∧
    extOk.juiceFn (docWrap (wrappedHtmlOf extOk (("# hi").toList) emptyOptions)
      (processedCSSOf extOk (some (("t").toList)) emptyOptions)) =
        Except.ok (("<body>ok</body>").toList) ∧
    bodyExtract (("<body>ok</body>").toList) = some (("ok").toList) ∧
    (¬ ("<style".toList) <:+: (("ok").toList)) ∧
    ((render extOk (("# hi").toList) (some (("t").toList)) RFormat.wechat emptyOptions).css = none ∧
      ¬ ("<style".toList) <:+:
        (render extOk (("# hi").toList) (some (("t").toList)) RFormat.wechat emptyOptions).html ∧
      renderDefaultFormat extOk (("# hi").toList) (some (("t").toList)) emptyOptions =
        render extOk (("# hi").toList) (some (("t").toList)) RFormat.wechat emptyOptions) := by
  have h1 : ¬ ("<style".toList) <:+:
      extOk.sanitize (extOk.parse emptyOptions (("# hi").toList)) :=
    hasSub_false_iff.mp (by decide)
  have h2 : ¬ ("<style".toList) <:+:
      processedCSSOf extOk (some (("t").toList)) emptyOptions := by
    refine hasSub_false_iff.mp ?_
    rw [← processedCSSOfF_eq]
    decide
  have h3 : extOk.juiceFn (docWrap (wrappedHtmlOf extOk (("# hi").toList) emptyOptions)
      (processedCSSOf extOk (some (("t").toList)) emptyOptions)) =
        Except.ok (("<body>ok</body>").toList) := rfl
  have h4 : bodyExtract (("<body>ok</body>").toList) = some (("ok").toList) := by
    decide
  have h5 : ¬ ("<style".toList) <:+: (("ok").toList) :=
    hasSub_false_iff.mp (by decide)
  exact ⟨h1, h2, h3, h4, h5,
    (C2_format_selector extOk (("# hi").toList) (some (("t").toList)) emptyOptions
      h1 h2 h3 h4 h5).2.2⟩
